import Mathlib

/-!
# InfinityTerrainGenerator: the chunk cache of `world.h` and the game loop of `main.cpp`

A shallow embedding of `ChunkNode`, `Area` and `InfinityWorld` (file `include/world.h`)
and of one iteration of the loop in `main` (file `src/main.cpp`).

Modelling conventions

* A `float` is modelled by the rational it holds.  The float operations on positions and
  locations (the division and the subtraction of `GetChunkLocationByPosition`, the `+ 1`
  and `- 1` of `LoadNeighbours`, the product in `Load`) are followed by `f32`, the
  round-to-nearest-even rounding of IEEE 754 binary32 (normal and subnormal range;
  infinities and NaN are not modelled).  The test `Vector2Distance(..) > 2` is decided on
  the exact squared distance, which gives the same verdict on integer-valued floats.
* `Vector2` holds a grid location.  Every location the program builds is the result of
  `std::ceil(..) - 1` or of adding `1` / `-1` to such a value, so its two floats are
  integer valued; they are held as `Int`, and the float operations on them (`+ 1`,
  `- 1`, `* (CHUNK_SIZE - 1)`) are rounded by `f32Int`.
* `(int) v` is `castInt v`: the value itself inside the range of `int`; outside it the
  conversion is undefined in C++ and is given the result of the x86 conversion
  instruction, `INT_MIN`.
* `Vector3` holds a world position.
* `SimplexNoise::noise` (an external header) is a parameter `noise` of every function
  that generates terrain; `SimplexNoise::setSeed` fixes which function that is.  The
  arithmetic inside `CalcHeight` is exact.
* `std::vector<std::shared_ptr<Area>>` is a `List Area`; an iterator is an index.
* raylib resources are values; the fields `generated`, `released` of `ChunkNode` and the
  field `log` of `InfinityWorld` are ghost state recording resource traffic.
-/

namespace InfinityTerrain

/-! ## Constants -/

/-- LANDSCAPE_NOISE_SMALL: the binary32 value of the literal `0.001f`. -/
def LANDSCAPE_NOISE_SMALL : ℚ := 8589935 / 8589934592

/-- LANDSCAPE_NOISE_MEDIUM: the binary32 value of the literal `0.01f`. -/
def LANDSCAPE_NOISE_MEDIUM : ℚ := 5368709 / 536870912

/-- LANDSCAPE_NOISE_BIG: the binary32 value of the literal `0.00009f`. -/
def LANDSCAPE_NOISE_BIG : ℚ := 6184753 / 68719476736

/-- CHUNK_SIZE: side of the sample grid of one chunk. -/
def CHUNK_SIZE : Nat := 100

/-- CHUNK_TO_MESH_SCALE: world units per heightmap sample. -/
def CHUNK_TO_MESH_SCALE : Nat := 5

/-- FAR_AREA_LIMIT_DISTANCE: defined by the header, used by no function. -/
def FAR_AREA_LIMIT_DISTANCE : Nat := 5

/-! ## raylib / raymath values -/

/-- Grid location: two integer-valued floats. -/
structure Vector2 where
  x : Int
  y : Int
deriving DecidableEq

/-- World position: three floats. -/
structure Vector3 where
  x : ℚ
  y : ℚ
  z : ℚ

/-- RGBA colour, each channel an `unsigned char`. -/
structure Color where
  r : Nat
  g : Nat
  b : Nat
  a : Nat
deriving DecidableEq

/-- The raylib colour BLACK. -/
def BLACK : Color := ⟨0, 0, 0, 255⟩

/-- CPU-side image: its size and its pixels. -/
structure Image where
  width : Nat
  height : Nat
  data : Nat → Nat → Color

/-- GenImageColor: a fresh image filled with one colour. -/
def GenImageColor (width height : Nat) (color : Color) : Image :=
  ⟨width, height, fun _ _ => color⟩

/-- ImageDrawPixel: overwrite one pixel, ignoring positions outside the image. -/
def ImageDrawPixel (dst : Image) (posX posY : Nat) (color : Color) : Image :=
  if posX < dst.width ∧ posY < dst.height then
    ⟨dst.width, dst.height, fun x y => if x = posX ∧ y = posY then color else dst.data x y⟩
  else dst

/-- The conversion `(unsigned char) v` of a float: truncation, then eight bits. -/
def toUChar (v : ℚ) : Nat := (Int.floor v).toNat % 256

/-! ## binary32 arithmetic -/

/-- Rounding of a rational to the nearest integer, ties to the even one. -/
def roundHalfEven (t : ℚ) : Int :=
  if t - (Int.floor t : ℚ) < 1 / 2 then Int.floor t
  else if 1 / 2 < t - (Int.floor t : ℚ) then Int.floor t + 1
  else if Int.floor t % 2 = 0 then Int.floor t
  else Int.floor t + 1

/-- Exponent of the binade of `q`: the `e` with `2^e <= |q| < 2^(e+1)`, and `-126` for
the subnormal range (and at least `-126` always). -/
def f32Exponent (q : ℚ) : Int := max (Int.log 2 |q|) (-126)

/-- Distance between neighbouring binary32 values in the binade of `q` (24-bit
significand). -/
def f32Ulp (q : ℚ) : ℚ := (2 : ℚ) ^ (f32Exponent q - 23)

/-- The binary32 value nearest to `q`, ties to the even significand. -/
def f32 (q : ℚ) : ℚ := (roundHalfEven (q / f32Ulp q) : ℚ) * f32Ulp q

/-- The binary32 rounding of an integer.  From 2^23 on every binary32 value is an integer
and below 2^24 every integer is a binary32 value, so the result is an integer and the
floor only changes its type. -/
def f32Int (n : Int) : Int := Int.floor (f32 (n : ℚ))

/-- The conversion `(int) v` of an integer-valued float: `v` inside the range of `int`,
`INT_MIN` outside it. -/
def castInt (v : Int) : Int :=
  if -2147483648 ≤ v ∧ v < 2147483648 then v else -2147483648

/-- raymath `Clamp(value, min, max)`. -/
def Clamp (value min max : ℚ) : ℚ :=
  let result := if value < min then min else value
  if result > max then max else result

/-- Squared Euclidean distance of two grid locations (raymath `Vector2DistanceSqr`). -/
def Vector2DistanceSqr (v1 v2 : Vector2) : Int :=
  (v1.x - v2.x) * (v1.x - v2.x) + (v1.y - v2.y) * (v1.y - v2.y)

/-- The comparison `Vector2Distance(v1, v2) > r` for a non-negative integer `r`.
`Vector2Distance` is the square root of `Vector2DistanceSqr`, and `sqrt s > r` holds
exactly when `s > r * r` (see `Vector2DistanceExceeds_iff_sqrt`). -/
def Vector2DistanceExceeds (v1 v2 : Vector2) (r : Nat) : Bool :=
  decide (Vector2DistanceSqr v1 v2 > (r : Int) * (r : Int))

/-- Mesh built by `GenMeshHeightmap` from a heightmap and a size vector. -/
structure Mesh where
  heightmap : Image
  sizeX : Nat
  sizeY : Nat
  sizeZ : Nat

/-- GenMeshHeightmap. -/
def GenMeshHeightmap (heightmap : Image) (sizeX sizeY sizeZ : Nat) : Mesh :=
  ⟨heightmap, sizeX, sizeY, sizeZ⟩

/-- Model: a mesh and the diffuse texture of its first material. -/
structure Model where
  mesh : Mesh
  texture : Option Image

/-- LoadModelFromMesh: a model with a default material (no diffuse texture yet). -/
def LoadModelFromMesh (mesh : Mesh) : Model := ⟨mesh, none⟩

/-- LoadTextureFromImage: the texture holds a copy of the image. -/
def LoadTextureFromImage (image : Image) : Image := image

/-! ## ChunkNode -/

/-- One chunk: `location`, `heightMap`, `heights`, `isLoaded`, and two ghost counters:
`generated` counts the `GenImageColor` calls made for this chunk, `released` the
`UnloadImage` calls. -/
structure ChunkNode where
  location : Vector2
  heightMap : Image
  heights : Nat → Nat → ℚ
  isLoaded : Bool
  generated : Nat
  released : Nat

namespace ChunkNode

/-- The constructor `ChunkNode(Vector2 location)` initialises `location` only: the members
`heightMap`, `heights` and `isLoaded` keep what the fresh storage held, given here as
`storage`.  No image has been generated or released yet. -/
def construct (location : Vector2) (storage : ChunkNode) : ChunkNode :=
  ⟨location, storage.heightMap, storage.heights, storage.isLoaded, 0, 0⟩

/-- CalcHeight: three octaves of noise, clamped to `[min, max]`. -/
def CalcHeight (noise : ℚ → ℚ → ℚ) (X Y : ℚ) (min max : Int) : ℚ :=
  Clamp
    (noise (X * LANDSCAPE_NOISE_SMALL) (Y * LANDSCAPE_NOISE_SMALL) +
      noise (X * LANDSCAPE_NOISE_MEDIUM) (Y * LANDSCAPE_NOISE_MEDIUM) +
      noise (X * LANDSCAPE_NOISE_BIG) (Y * LANDSCAPE_NOISE_BIG))
    min max

/-- Body of the inner loop of `Load` at sample `(x, y)`: it writes `heights[x][y]` and the
pixel `(x, y)` of the heightmap. -/
def Load.body (noise : ℚ → ℚ → ℚ) (locationOffsetX locationOffsetY : Int) (x y : Nat)
    (st : Image × (Nat → Nat → ℚ)) : Image × (Nat → Nat → ℚ) :=
  let val := CalcHeight noise ((locationOffsetX + (x : Int) : Int) : ℚ)
    ((locationOffsetY + (y : Int) : Int) : ℚ) 0 2
  let gray := toUChar ((val / 2) * 255)
  (ImageDrawPixel st.1 x y ⟨gray, gray, gray, 255⟩,
    fun i j => if i = x ∧ j = y then val else st.2 i j)

/-- The inner loop `for (int y = 0; y < CHUNK_SIZE; y++)` of `Load`. -/
def Load.inner (noise : ℚ → ℚ → ℚ) (locationOffsetX locationOffsetY : Int) (x : Nat)
    (st : Image × (Nat → Nat → ℚ)) : Image × (Nat → Nat → ℚ) :=
  (List.range CHUNK_SIZE).foldl
    (fun st y => Load.body noise locationOffsetX locationOffsetY x y st) st

/-- The outer loop `for (int x = 0; x < CHUNK_SIZE; x++)` of `Load`. -/
def Load.outer (noise : ℚ → ℚ → ℚ) (locationOffsetX locationOffsetY : Int)
    (st : Image × (Nat → Nat → ℚ)) : Image × (Nat → Nat → ℚ) :=
  (List.range CHUNK_SIZE).foldl
    (fun st x => Load.inner noise locationOffsetX locationOffsetY x st) st

/-- ChunkNode::Load. -/
def Load (noise : ℚ → ℚ → ℚ) (c : ChunkNode) : ChunkNode :=
  let heightMap := GenImageColor CHUNK_SIZE CHUNK_SIZE BLACK
  let locationOffsetX : Int := castInt (f32Int (c.location.x * ((CHUNK_SIZE : Int) - 1)))
  let locationOffsetY : Int := castInt (f32Int (c.location.y * ((CHUNK_SIZE : Int) - 1)))
  let st := Load.outer noise locationOffsetX locationOffsetY (heightMap, c.heights)
  ⟨c.location, st.1, st.2, true, c.generated + 1, c.released⟩

/-- ChunkNode::Unload. -/
def Unload (c : ChunkNode) : ChunkNode :=
  if !c.isLoaded then c
  else ⟨c.location, c.heightMap, c.heights, false, c.generated, c.released + 1⟩

/-- The destructor `~ChunkNode()`, whose body is a call of `Unload`. -/
def destroy (c : ChunkNode) : ChunkNode := c.Unload

end ChunkNode

/-! ## Area -/

/-- One cache entry: a location, its chunk and the render artefacts. -/
structure Area where
  location : Vector2
  chunkNode : ChunkNode
  mesh : Mesh
  model : Model

/-- Area::scaleOffset = CHUNK_SIZE * CHUNK_TO_MESH_SCALE. -/
def Area.scaleOffset : Nat := CHUNK_SIZE * CHUNK_TO_MESH_SCALE

/-! ## InfinityWorld -/

/-- Ghost record of resource traffic: a chunk generated by `LoadOrGetAreaByLocation`, an
area handed to `InfinityWorld::Unload`. -/
inductive Event where
  | generated (location : Vector2)
  | unloaded (location : Vector2)
deriving DecidableEq

/-- The world: the vector `areas`, and the ghost `log`. -/
structure InfinityWorld where
  areas : List Area
  log : List Event

namespace InfinityWorld

/-- The world right after the constructor `InfinityWorld(int seed)`. -/
def empty : InfinityWorld := ⟨[], []⟩

/-- GetAreaByLocalPos: the first area whose location has the same two `(int)` casts. -/
def GetAreaByLocalPos (w : InfinityWorld) (pos : Vector2) : Option Area :=
  w.areas.find? (fun a =>
    decide (castInt a.location.x = castInt pos.x) &&
      decide (castInt a.location.y = castInt pos.y))

/-- LoadOrGetAreaByLocation: the returned area and the world afterwards. -/
def LoadOrGetAreaByLocation (noise : ℚ → ℚ → ℚ) (storage : ChunkNode) (w : InfinityWorld)
    (location : Vector2) : Area × InfinityWorld :=
  match w.GetAreaByLocalPos location with
  | some foundArea => (foundArea, w)
  | none =>
    let chunk := (ChunkNode.construct location storage).Load noise
    let texture := LoadTextureFromImage chunk.heightMap
    let mesh := GenMeshHeightmap chunk.heightMap CHUNK_TO_MESH_SCALE 1 CHUNK_TO_MESH_SCALE
    let model : Model := ⟨(LoadModelFromMesh mesh).mesh, some texture⟩
    let area : Area := ⟨location, chunk, mesh, model⟩
    (area, ⟨w.areas ++ [area], w.log ++ [Event.generated location]⟩)

/-- LoadNeighbours: the eight calls, in the order of the source. -/
def LoadNeighbours (noise : ℚ → ℚ → ℚ) (storage : ChunkNode) (w : InfinityWorld)
    (area : Area) : InfinityWorld :=
  let neighbourNorth : Vector2 := ⟨area.location.x, f32Int (area.location.y - 1)⟩
  let neighbourNorthEast : Vector2 :=
    ⟨f32Int (area.location.x + 1), f32Int (area.location.y - 1)⟩
  let neighbourEast : Vector2 := ⟨f32Int (area.location.x + 1), area.location.y⟩
  let neighbourSouthEast : Vector2 :=
    ⟨f32Int (area.location.x + 1), f32Int (area.location.y + 1)⟩
  let neighbourSouth : Vector2 := ⟨area.location.x, f32Int (area.location.y + 1)⟩
  let neighbourSouthWest : Vector2 :=
    ⟨f32Int (area.location.x - 1), f32Int (area.location.y + 1)⟩
  let neighbourWest : Vector2 := ⟨f32Int (area.location.x - 1), area.location.y⟩
  let neighbourNorthWest : Vector2 :=
    ⟨f32Int (area.location.x - 1), f32Int (area.location.y - 1)⟩
  let w := (LoadOrGetAreaByLocation noise storage w neighbourNorth).2
  let w := (LoadOrGetAreaByLocation noise storage w neighbourNorthEast).2
  let w := (LoadOrGetAreaByLocation noise storage w neighbourEast).2
  let w := (LoadOrGetAreaByLocation noise storage w neighbourSouthEast).2
  let w := (LoadOrGetAreaByLocation noise storage w neighbourSouth).2
  let w := (LoadOrGetAreaByLocation noise storage w neighbourSouthWest).2
  let w := (LoadOrGetAreaByLocation noise storage w neighbourWest).2
  (LoadOrGetAreaByLocation noise storage w neighbourNorthWest).2

/-- GetChunkLocationByPosition: `ceil(pos.x / scaleOffset) - 1`, `ceil(pos.z / scaleOffset) - 1`,
the division and the subtraction in binary32 (the ceiling of a binary32 value is one). -/
def GetChunkLocationByPosition (pos : Vector3) : Vector2 :=
  ⟨f32Int (Int.ceil (f32 (pos.x / (Area.scaleOffset : ℚ))) - 1),
    f32Int (Int.ceil (f32 (pos.z / (Area.scaleOffset : ℚ))) - 1)⟩

/-- GetArea. -/
def GetArea (noise : ℚ → ℚ → ℚ) (storage : ChunkNode) (w : InfinityWorld) (pos : Vector3) :
    Area × InfinityWorld :=
  LoadOrGetAreaByLocation noise storage w (GetChunkLocationByPosition pos)

/-- InfinityWorld::Unload(area): the chunk is unloaded, texture and model are handed back
to raylib.  The result is the area as it is left behind. -/
def Unload (area : Area) : Area :=
  ⟨area.location, area.chunkNode.Unload, area.mesh, ⟨area.model.mesh, none⟩⟩

/-- State of the loop of `UnloadFarAreas`: the vector, the iterator `it` as an index, and
two ghost lists: the entries the loop has dereferenced, and the entries it handed to
`Unload`, each in the order it happened. -/
structure EraseLoop where
  areas : List Area
  it : Nat
  visited : List Area
  unloaded : List Area

/-- The loop `for (auto it = areas.begin(); it != areas.end();)` of `UnloadFarAreas`. -/
def UnloadFarAreas.loop (currentLocation : Vector2) (s : EraseLoop) : EraseLoop :=
  if h : s.it < s.areas.length then
    let area := s.areas.get ⟨s.it, h⟩
    if Vector2DistanceExceeds currentLocation area.location 2 then
      UnloadFarAreas.loop currentLocation
        ⟨s.areas.eraseIdx s.it, s.it, s.visited ++ [area], s.unloaded ++ [Unload area]⟩
    else
      UnloadFarAreas.loop currentLocation ⟨s.areas, s.it + 1, s.visited ++ [area], s.unloaded⟩
  else s
termination_by s.areas.length - s.it
decreasing_by
  all_goals simp_wf
  · rw [List.length_eraseIdx]
    simp [h]
    omega
  · omega

/-- UnloadFarAreas. -/
def UnloadFarAreas (w : InfinityWorld) (pos : Vector3) : InfinityWorld :=
  let currentLocation := GetChunkLocationByPosition pos
  let s := UnloadFarAreas.loop currentLocation ⟨w.areas, 0, [], []⟩
  ⟨s.areas, w.log ++ s.unloaded.map (fun a => Event.unloaded a.location)⟩

/-- UnloadAll. -/
def UnloadAll (w : InfinityWorld) : InfinityWorld :=
  ⟨[], w.log ++ (w.areas.map Unload).map (fun a => Event.unloaded a.location)⟩

end InfinityWorld

/-! ## One iteration of the loop of `main` -/

/-- One pass through the body of `while (!WindowShouldClose())`.  `position` is
`camera.position` at the top of the body, `updated` is `camera.position` after
`UpdateCameraCustom(camera)`; drawing reads the world only. -/
def mainLoopIteration (noise : ℚ → ℚ → ℚ) (storage : ChunkNode) (world : InfinityWorld)
    (position updated : Vector3) : InfinityWorld :=
  let localArea := world.GetArea noise storage position
  let world := localArea.2.LoadNeighbours noise storage localArea.1
  world.UnloadFarAreas updated

/-! ## Vocabulary of the statements -/

/-- The height `Load` stores at sample `(i, j)` of a chunk with the given offsets. -/
def ChunkNode.sampleAt (noise : ℚ → ℚ → ℚ) (locationOffsetX locationOffsetY : Int)
    (i j : Nat) : ℚ :=
  ChunkNode.CalcHeight noise ((locationOffsetX + (i : Int) : Int) : ℚ)
    ((locationOffsetY + (j : Int) : Int) : ℚ) 0 2

/-- Calls a client can make on one chunk after constructing it. -/
inductive ChunkOp where
  | load
  | unload
  | destroy
deriving DecidableEq

/-- Effect of one call on a chunk. -/
def ChunkOp.apply (noise : ℚ → ℚ → ℚ) (c : ChunkNode) : ChunkOp → ChunkNode
  | ChunkOp.load => c.Load noise
  | ChunkOp.unload => c.Unload
  | ChunkOp.destroy => c.destroy

/-- A chunk taken through a sequence of calls, first call first. -/
def ChunkNode.run (noise : ℚ → ℚ → ℚ) (c : ChunkNode) (ops : List ChunkOp) : ChunkNode :=
  ops.foldl (ChunkOp.apply noise) c

/-- An area stays when its location is not farther than 2 from the current location. -/
def InfinityWorld.staysNear (currentLocation : Vector2) (a : Area) : Bool :=
  !Vector2DistanceExceeds currentLocation a.location 2

/-- Locations of the resident areas, in the order of the vector. -/
def InfinityWorld.locations (w : InfinityWorld) : List Vector2 := w.areas.map Area.location

/-- Number of chunks generated so far, read off the ghost log. -/
def InfinityWorld.generations (w : InfinityWorld) : Nat :=
  w.log.countP (fun e => match e with
    | Event.generated _ => true
    | Event.unloaded _ => false)

/-- The eight Moore neighbours of a location, in the order `LoadNeighbours` requests them. -/
def neighbours (c : Vector2) : List Vector2 :=
  [⟨c.x, c.y - 1⟩, ⟨c.x + 1, c.y - 1⟩, ⟨c.x + 1, c.y⟩, ⟨c.x + 1, c.y + 1⟩,
    ⟨c.x, c.y + 1⟩, ⟨c.x - 1, c.y + 1⟩, ⟨c.x - 1, c.y⟩, ⟨c.x - 1, c.y - 1⟩]

/-- The 3x3 block centred on a location: the centre, then its eight neighbours. -/
def block (c : Vector2) : List Vector2 := c :: neighbours c

/-- One coordinate of `GetChunkLocationByPosition`: divide by the scale offset 500, round,
take the ceiling, subtract one, round. -/
def cellOf (p : ℚ) : Int := f32Int (Int.ceil (f32 (p / 500)) - 1)

/-- The eight locations `LoadNeighbours` computes around `c`, in the order it requests
them: the neighbours of `c` with every `+ 1` and `- 1` rounded to binary32. -/
def loadedNeighbours (c : Vector2) : List Vector2 :=
  [⟨c.x, f32Int (c.y - 1)⟩, ⟨f32Int (c.x + 1), f32Int (c.y - 1)⟩, ⟨f32Int (c.x + 1), c.y⟩,
    ⟨f32Int (c.x + 1), f32Int (c.y + 1)⟩, ⟨c.x, f32Int (c.y + 1)⟩,
    ⟨f32Int (c.x - 1), f32Int (c.y + 1)⟩, ⟨f32Int (c.x - 1), c.y⟩,
    ⟨f32Int (c.x - 1), f32Int (c.y - 1)⟩]

/-- The pair of `(int)` casts by which `GetAreaByLocalPos` compares locations. -/
def castKey (v : Vector2) : Int × Int := (castInt v.x, castInt v.y)

/-- Both coordinates lie in the range of `int`, where `(int)` keeps the value. -/
def InIntRange (v : Vector2) : Prop :=
  (-2147483648 ≤ v.x ∧ v.x < 2147483648) ∧ (-2147483648 ≤ v.y ∧ v.y < 2147483648)

/-- Both coordinates are below 2^24 - 1 in magnitude, so that the coordinate and its two
neighbours are binary32 values and `+ 1`, `- 1` on it are exact. -/
def InExactRange (v : Vector2) : Prop :=
  (-16777214 ≤ v.x ∧ v.x ≤ 16777214) ∧ (-16777214 ≤ v.y ∧ v.y ≤ 16777214)

/-- Appending a location unless the lookup by `(int)` casts finds an entry for it. -/
def insertKeyed (l : List Vector2) (c : Vector2) : List Vector2 :=
  if castKey c ∈ l.map castKey then l else l ++ [c]

/-- The area `LoadOrGetAreaByLocation` builds when its lookup finds nothing: a chunk
constructed at the location and loaded, its texture, mesh and model. -/
def InfinityWorld.freshArea (noise : ℚ → ℚ → ℚ) (storage : ChunkNode) (location : Vector2) :
    Area :=
  ⟨location, (ChunkNode.construct location storage).Load noise,
    GenMeshHeightmap ((ChunkNode.construct location storage).Load noise).heightMap
      CHUNK_TO_MESH_SCALE 1 CHUNK_TO_MESH_SCALE,
    ⟨GenMeshHeightmap ((ChunkNode.construct location storage).Load noise).heightMap
        CHUNK_TO_MESH_SCALE 1 CHUNK_TO_MESH_SCALE,
      some (LoadTextureFromImage ((ChunkNode.construct location storage).Load noise).heightMap)⟩⟩

/-- Appending a location to a list of locations unless it is already there. -/
def insertLocation (l : List Vector2) (c : Vector2) : List Vector2 :=
  if c ∈ l then l else l ++ [c]

/-- The thirteen integer offsets `(dx, dy)` with `dx^2 + dy^2 <= 4`. -/
def nearOffsets : List Vector2 :=
  [⟨0, 0⟩, ⟨1, 0⟩, ⟨-1, 0⟩, ⟨0, 1⟩, ⟨0, -1⟩, ⟨1, 1⟩, ⟨1, -1⟩, ⟨-1, 1⟩, ⟨-1, -1⟩,
    ⟨2, 0⟩, ⟨-2, 0⟩, ⟨0, 2⟩, ⟨0, -2⟩]

/-- Operations of the cache a client can invoke. -/
inductive Op where
  | loadOrGet (location : Vector2)
  | loadNeighbours (area : Area)
  | getArea (pos : Vector3)
  | unloadFar (pos : Vector3)
  | unloadAll

/-- Effect of one cache operation on the world. -/
def Op.apply (noise : ℚ → ℚ → ℚ) (storage : ChunkNode) (w : InfinityWorld) : Op → InfinityWorld
  | Op.loadOrGet location => (w.LoadOrGetAreaByLocation noise storage location).2
  | Op.loadNeighbours area => w.LoadNeighbours noise storage area
  | Op.getArea pos => (w.GetArea noise storage pos).2
  | Op.unloadFar pos => w.UnloadFarAreas pos
  | Op.unloadAll => w.UnloadAll

/-- The world after a sequence of cache operations, first operation first. -/
def InfinityWorld.run (noise : ℚ → ℚ → ℚ) (storage : ChunkNode) (w : InfinityWorld)
    (ops : List Op) : InfinityWorld :=
  ops.foldl (Op.apply noise storage) w

/-! ## Concrete data for the examples -/

/-- A noise function that is zero everywhere. -/
def flatNoise : ℚ → ℚ → ℚ := fun _ _ => 0

/-- A noise function that varies with the sample position. -/
def rampNoise : ℚ → ℚ → ℚ := fun x y => x + 2 * y

/-- A noise function that grows slowly with the second sample coordinate. -/
def slopeNoise : ℚ → ℚ → ℚ := fun _ y => y / 1000000

/-- Storage whose flag reads "not loaded". -/
def clearStorage : ChunkNode :=
  ⟨⟨0, 0⟩, GenImageColor 0 0 BLACK, fun _ _ => 0, false, 0, 0⟩

/-- Storage whose flag happens to read "loaded". -/
def dirtyStorage : ChunkNode :=
  ⟨⟨7, 7⟩, GenImageColor 0 0 BLACK, fun _ _ => 1, true, 0, 0⟩

/-- The load step of a tick at cell `c`: `LoadOrGetAreaByLocation(c)`, then
`LoadNeighbours` on the area it returned. -/
def InfinityWorld.loadBlock (noise : ℚ → ℚ → ℚ) (storage : ChunkNode) (w : InfinityWorld)
    (c : Vector2) : InfinityWorld :=
  (w.LoadOrGetAreaByLocation noise storage c).2.LoadNeighbours noise storage
    (w.LoadOrGetAreaByLocation noise storage c).1

/-- The cache after the load step of the first tick of `main`-like use at the origin. -/
def originWorld : InfinityWorld :=
  (InfinityWorld.empty).loadBlock flatNoise clearStorage ⟨0, 0⟩

/-- A cache holding the 25 cells of the 5x5 block around the origin. -/
def denseWorld : InfinityWorld :=
  (InfinityWorld.empty).run flatNoise clearStorage
    [Op.loadOrGet ⟨-2, -2⟩, Op.loadOrGet ⟨-1, -2⟩, Op.loadOrGet ⟨0, -2⟩, Op.loadOrGet ⟨1, -2⟩,
      Op.loadOrGet ⟨2, -2⟩, Op.loadOrGet ⟨-2, -1⟩, Op.loadOrGet ⟨-1, -1⟩, Op.loadOrGet ⟨0, -1⟩,
      Op.loadOrGet ⟨1, -1⟩, Op.loadOrGet ⟨2, -1⟩, Op.loadOrGet ⟨-2, 0⟩, Op.loadOrGet ⟨-1, 0⟩,
      Op.loadOrGet ⟨0, 0⟩, Op.loadOrGet ⟨1, 0⟩, Op.loadOrGet ⟨2, 0⟩, Op.loadOrGet ⟨-2, 1⟩,
      Op.loadOrGet ⟨-1, 1⟩, Op.loadOrGet ⟨0, 1⟩, Op.loadOrGet ⟨1, 1⟩, Op.loadOrGet ⟨2, 1⟩,
      Op.loadOrGet ⟨-2, 2⟩, Op.loadOrGet ⟨-1, 2⟩, Op.loadOrGet ⟨0, 2⟩, Op.loadOrGet ⟨1, 2⟩,
      Op.loadOrGet ⟨2, 2⟩]

/-! ## Facts about the raymath helpers -/

/-- The squared-distance comparison is the comparison of the real Euclidean distance:
`Vector2DistanceExceeds v1 v2 r` holds exactly when the square root of the squared
distance is greater than `r`. -/
theorem Vector2DistanceExceeds_iff_sqrt (v1 v2 : Vector2) (r : Nat) :
    Vector2DistanceExceeds v1 v2 r = true ↔
      Real.sqrt ((Vector2DistanceSqr v1 v2 : Int) : ℝ) > (r : ℝ) := by
  have hr : (0 : ℝ) ≤ (r : ℝ) := Nat.cast_nonneg r
  rw [gt_iff_lt, Real.lt_sqrt hr]
  simp only [Vector2DistanceExceeds, decide_eq_true_eq, gt_iff_lt]
  constructor
  · intro h
    have h2 : (((r : Int) * (r : Int) : Int) : ℝ) < ((Vector2DistanceSqr v1 v2 : Int) : ℝ) :=
      Int.cast_lt.mpr h
    push_cast at h2
    nlinarith [h2]
  · intro h
    have h2 : (((r : Int) * (r : Int) : Int) : ℝ) < ((Vector2DistanceSqr v1 v2 : Int) : ℝ) := by
      push_cast
      nlinarith [h]
    exact Int.cast_lt.mp h2

/-- Clamp returns a value between its bounds when the bounds are ordered. -/
theorem Clamp_mem (value min max : ℚ) (h : min ≤ max) :
    min ≤ Clamp value min max ∧ Clamp value min max ≤ max := by
  unfold Clamp
  by_cases h1 : value < min
  · simp only [h1, if_true]
    have : ¬ min > max := not_lt.mpr h
    simp [this, h]
  · simp only [h1, if_false]
    by_cases h2 : value > max
    · simp [h2, h]
    · simp only [h2, if_false]
      exact ⟨not_lt.mp h1, not_lt.mp h2⟩

/-! ## Facts about binary32 rounding -/

theorem roundHalfEven_le (t : ℚ) (N : Int) (h : t ≤ (N : ℚ)) : roundHalfEven t ≤ N := by
  have hfl : Int.floor t ≤ N := Int.floor_le_iff.mpr (by linarith)  
  have hft : ((Int.floor t : Int) : ℚ) ≤ t := Int.floor_le t
  unfold roundHalfEven
  rcases lt_or_eq_of_le hfl with hlt | heq
  · split_ifs <;> omega
  · have : t - (Int.floor t : ℚ) < 1 / 2 := by
      rw [heq] at hft ⊢
      linarith
    rw [if_pos this]
    omega

theorem le_roundHalfEven (t : ℚ) (N : Int) (h : (N : ℚ) ≤ t) : N ≤ roundHalfEven t := by
  have hfl : N ≤ Int.floor t := Int.le_floor.mpr h
  unfold roundHalfEven
  split_ifs <;> omega

theorem lt_roundHalfEven (t : ℚ) (N : Int) (h : (N : ℚ) + 1 / 2 < t) : N < roundHalfEven t := by
  have hfl : N ≤ Int.floor t := Int.le_floor.mpr (by linarith)
  unfold roundHalfEven
  rcases lt_or_eq_of_le hfl with hlt | heq
  · split_ifs <;> omega
  · have h1 : ¬ (t - (Int.floor t : ℚ) < 1 / 2) := by
      rw [← heq]; linarith
    have h2 : 1 / 2 < t - (Int.floor t : ℚ) := by
      rw [← heq]; linarith
    simp only [h1, h2, if_false, if_true]
    omega

theorem roundHalfEven_intCast (n : Int) : roundHalfEven (n : ℚ) = n := by
  unfold roundHalfEven
  simp

theorem roundHalfEven_eq (t : ℚ) (m : Int) (h1 : (m : ℚ) - 1 / 2 < t) (h2 : t < (m : ℚ) + 1 / 2) :
    roundHalfEven t = m := by
  apply le_antisymm
  · by_contra hcon
    push_neg at hcon
    have hfl : Int.floor t ≤ m := Int.floor_le_iff.mpr (by linarith)
    have hft : ((Int.floor t : Int) : ℚ) ≤ t := Int.floor_le t
    unfold roundHalfEven at hcon
    rcases lt_or_eq_of_le hfl with hlt | heq
    · split_ifs at hcon <;> omega
    · have : t - (Int.floor t : ℚ) < 1 / 2 := by rw [heq]; linarith
      rw [if_pos this] at hcon
      omega
  · have hfl : m - 1 ≤ Int.floor t := Int.le_floor.mpr (by push_cast; linarith)
    have hlt : t < ((Int.floor t : Int) : ℚ) + 1 := Int.lt_floor_add_one t
    unfold roundHalfEven
    rcases lt_or_eq_of_le hfl with hlt2 | heq
    · split_ifs <;> omega
    · have h1 : ¬ (t - (Int.floor t : ℚ) < 1 / 2) := by
        rw [← heq]; push_cast; linarith
      have h2 : 1 / 2 < t - (Int.floor t : ℚ) := by
        rw [← heq]; push_cast; linarith
      simp only [h1, h2, if_false, if_true]
      omega

theorem roundHalfEven_tie (m : Int) :
    roundHalfEven ((m : ℚ) + 1 / 2) = if m % 2 = 0 then m else m + 1 := by
  have hfl : Int.floor ((m : ℚ) + 1 / 2) = m := by
    rw [Int.floor_eq_iff]
    constructor <;> linarith
  unfold roundHalfEven
  rw [hfl]
  norm_num

theorem f32Exponent_eq (q : ℚ) (e : Int) (hlo : (2 : ℚ) ^ e ≤ |q|) (hhi : |q| < (2 : ℚ) ^ (e + 1))
    (he : -126 ≤ e) : f32Exponent q = e := by
  have hpos : (0 : ℚ) < |q| := lt_of_lt_of_le (zpow_pos (by norm_num) e) hlo
  have h1 : e ≤ Int.log 2 |q| := by
    rw [← Int.zpow_le_iff_le_log (by norm_num) hpos]
    exact_mod_cast hlo
  have h2 : Int.log 2 |q| < e + 1 := by
    rw [← Int.lt_zpow_iff_log_lt (by norm_num) hpos]
    exact_mod_cast hhi
  unfold f32Exponent
  omega

theorem f32Exponent_ge (q : ℚ) : -126 ≤ f32Exponent q := le_max_right _ _

theorem f32Exponent_lt (q : ℚ) (E : Int) (hE : 0 < E) (hhi : |q| < (2 : ℚ) ^ E) :
    f32Exponent q < E := by
  unfold f32Exponent
  rcases eq_or_lt_of_le (abs_nonneg q) with h0 | hpos
  · rw [← h0, Int.log_zero_right]
    omega
  · have h2 : Int.log 2 |q| < E := by
      rw [← Int.lt_zpow_iff_log_lt (by norm_num) hpos]
      exact_mod_cast hhi
    omega

theorem f32Ulp_pos (q : ℚ) : 0 < f32Ulp q := zpow_pos (by norm_num) _

/-- Below 2^24 the grid of binary32 values is a negative power of two. -/
theorem f32Ulp_of_lt (q : ℚ) (h : |q| < 16777216) :
    ∃ j : ℕ, f32Ulp q = ((2 : ℚ) ^ j)⁻¹ := by
  have hlt : f32Exponent q < 24 := f32Exponent_lt q 24 (by norm_num) (by norm_num; exact h)
  refine ⟨(23 - f32Exponent q).toNat, ?_⟩
  unfold f32Ulp
  rw [← zpow_natCast, ← zpow_neg]
  congr 1
  rw [Int.toNat_of_nonneg (by omega)]
  ring

theorem f32_le_intCast (q : ℚ) (N : Int) (h : |q| < 16777216) (hq : q ≤ (N : ℚ)) :
    f32 q ≤ (N : ℚ) := by
  obtain ⟨j, hj⟩ := f32Ulp_of_lt q h
  have hpow : (0 : ℚ) < (2 : ℚ) ^ j := pow_pos (by norm_num) j
  unfold f32
  rw [hj, div_inv_eq_mul]
  have hle : roundHalfEven (q * (2 : ℚ) ^ j) ≤ N * (2 : Int) ^ j := by
    apply roundHalfEven_le
    push_cast
    exact mul_le_mul_of_nonneg_right hq hpow.le
  have hle' : ((roundHalfEven (q * (2 : ℚ) ^ j) : Int) : ℚ) ≤ (N : ℚ) * (2 : ℚ) ^ j := by
    exact_mod_cast hle
  rw [← div_eq_mul_inv, div_le_iff₀ hpow]
  exact hle'

theorem intCast_le_f32 (q : ℚ) (N : Int) (h : |q| < 16777216) (hq : (N : ℚ) ≤ q) :
    (N : ℚ) ≤ f32 q := by
  obtain ⟨j, hj⟩ := f32Ulp_of_lt q h
  have hpow : (0 : ℚ) < (2 : ℚ) ^ j := pow_pos (by norm_num) j
  unfold f32
  rw [hj, div_inv_eq_mul]
  have hle : N * (2 : Int) ^ j ≤ roundHalfEven (q * (2 : ℚ) ^ j) := by
    apply le_roundHalfEven
    push_cast
    exact mul_le_mul_of_nonneg_right hq hpow.le
  have hle' : (N : ℚ) * (2 : ℚ) ^ j ≤ ((roundHalfEven (q * (2 : ℚ) ^ j) : Int) : ℚ) := by
    exact_mod_cast hle
  rw [← div_eq_mul_inv, le_div_iff₀ hpow]
  exact hle'

theorem intCast_lt_f32 (q : ℚ) (N : Int) (h : |q| < 16777216)
    (hq : (N : ℚ) + f32Ulp q / 2 < q) : (N : ℚ) < f32 q := by
  obtain ⟨j, hj⟩ := f32Ulp_of_lt q h
  have hpow : (0 : ℚ) < (2 : ℚ) ^ j := pow_pos (by norm_num) j
  rw [hj] at hq
  unfold f32
  rw [hj, div_inv_eq_mul]
  have hlt : N * (2 : Int) ^ j < roundHalfEven (q * (2 : ℚ) ^ j) := by
    apply lt_roundHalfEven
    push_cast
    have := mul_lt_mul_of_pos_right hq hpow
    have hcancel : ((2 : ℚ) ^ j)⁻¹ / 2 * (2 : ℚ) ^ j = 1 / 2 := by
      field_simp
    linarith [this, hcancel, add_mul (N : ℚ) (((2 : ℚ) ^ j)⁻¹ / 2) ((2 : ℚ) ^ j)]
  have hlt' : (N : ℚ) * (2 : ℚ) ^ j < ((roundHalfEven (q * (2 : ℚ) ^ j) : Int) : ℚ) := by
    exact_mod_cast hlt
  rw [← div_eq_mul_inv, lt_div_iff₀ hpow]
  exact hlt'

theorem f32_intCast (n : Int) (h : |(n : ℚ)| < 16777216) : f32 (n : ℚ) = n :=
  le_antisymm (f32_le_intCast _ n h le_rfl) (intCast_le_f32 _ n h le_rfl)

theorem f32Int_of_lt (n : Int) (h1 : -16777216 < n) (h2 : n < 16777216) : f32Int n = n := by
  unfold f32Int
  rw [f32_intCast n (by rw [abs_lt]; constructor <;> norm_cast)]
  simp

/-- The binary32 rounding of an integer is an integer: `f32Int` loses nothing. -/
theorem f32Int_cast (n : Int) : ((f32Int n : Int) : ℚ) = f32 (n : ℚ) := by
  by_cases h : |(n : ℚ)| < 16777216
  · unfold f32Int
    rw [f32_intCast n h, Int.floor_intCast]
  · have hge : (2 : ℚ) ^ (24 : Int) ≤ |(n : ℚ)| := by
      norm_num
      exact not_lt.mp h
    have hpos : (0 : ℚ) < |(n : ℚ)| := lt_of_lt_of_le (zpow_pos (by norm_num) _) hge
    have hlog : 24 ≤ Int.log 2 |(n : ℚ)| := by
      rw [← Int.zpow_le_iff_le_log (by norm_num) hpos]
      exact_mod_cast hge
    have hE : 24 ≤ f32Exponent (n : ℚ) := le_trans hlog (le_max_left _ _)
    have hulp : f32Ulp (n : ℚ) = ((2 ^ (f32Exponent (n : ℚ) - 23).toNat : Int) : ℚ) := by
      unfold f32Ulp
      push_cast
      rw [← zpow_natCast, Int.toNat_of_nonneg (by omega)]
    unfold f32Int f32
    rw [hulp, ← Int.cast_mul, Int.floor_intCast]

/-- Evaluation of `f32` once the binade and the rounded quotient are known. -/
theorem f32_eval (q : ℚ) (e n : Int) (hlo : (2 : ℚ) ^ e ≤ |q|) (hhi : |q| < (2 : ℚ) ^ (e + 1))
    (he : -126 ≤ e) (hn : roundHalfEven (q / (2 : ℚ) ^ (e - 23)) = n) :
    f32 q = (n : ℚ) * (2 : ℚ) ^ (e - 23) := by
  unfold f32 f32Ulp
  rw [f32Exponent_eq q e hlo hhi he, hn]

/-- A binary32 value below 2^24 that exceeds an integer exceeds it by a whole grid step. -/
theorem add_ulp_le_of_lt (p : ℚ) (M : Int) (hfloat : f32 p = p) (h : |p| < 16777216)
    (hlt : (M : ℚ) < p) : (M : ℚ) + f32Ulp p ≤ p := by
  obtain ⟨j, hj⟩ := f32Ulp_of_lt p h
  have hpow : (0 : ℚ) < (2 : ℚ) ^ j := pow_pos (by norm_num) j
  have hp : p = (roundHalfEven (p / f32Ulp p) : ℚ) * f32Ulp p := hfloat.symm
  rw [hj] at hp ⊢
  obtain ⟨n, hn⟩ : ∃ n : Int, n = roundHalfEven (p / ((2 : ℚ) ^ j)⁻¹) := ⟨_, rfl⟩
  rw [← hn] at hp
  have hpn : p * (2 : ℚ) ^ j = (n : ℚ) := by
    rw [hp]; field_simp
  have hMn : M * (2 : Int) ^ j < n := by
    have : (M : ℚ) * (2 : ℚ) ^ j < (n : ℚ) := by
      rw [← hpn]; exact mul_lt_mul_of_pos_right hlt hpow
    exact_mod_cast this
  have hMn' : ((M * (2 : Int) ^ j + 1 : Int) : ℚ) ≤ (n : ℚ) := by
    exact_mod_cast hMn
  push_cast at hMn'
  rw [← hpn] at hMn'
  have : ((M : ℚ) + ((2 : ℚ) ^ j)⁻¹) * (2 : ℚ) ^ j ≤ p * (2 : ℚ) ^ j := by
    rw [add_mul, inv_mul_cancel₀ hpow.ne']
    exact hMn'
  exact le_of_mul_le_mul_right this hpow

/-- Dividing a normal binary32 value by 500 moves it at least eight binades down. -/
theorem f32Ulp_div_500 (p : ℚ) (h : (2 : ℚ) ^ (-118 : Int) ≤ |p|) :
    f32Ulp (p / 500) ≤ f32Ulp p / 256 := by
  have hpos : (0 : ℚ) < |p| := lt_of_lt_of_le (zpow_pos (by norm_num) _) h
  have hlog : -118 ≤ Int.log 2 |p| := by
    rw [← Int.zpow_le_iff_le_log (by norm_num) hpos]
    exact_mod_cast h
  have hE : f32Exponent p = Int.log 2 |p| := by
    unfold f32Exponent
    omega
  have hup : |p| < (2 : ℚ) ^ (Int.log 2 |p| + 1) := by
    have := Int.lt_zpow_succ_log_self (by norm_num : 1 < 2) |p|
    exact_mod_cast this
  have hq : |p / 500| < (2 : ℚ) ^ (Int.log 2 |p| - 7) := by
    rw [abs_div, abs_of_pos (by norm_num : (0 : ℚ) < 500), div_lt_iff₀ (by norm_num)]
    have h2 : (2 : ℚ) ^ (Int.log 2 |p| + 1) = (2 : ℚ) ^ (Int.log 2 |p| - 7) * 256 := by
      rw [show Int.log 2 |p| + 1 = (Int.log 2 |p| - 7) + 8 by ring, zpow_add₀ (by norm_num)]
      norm_num
    have h3 : (0 : ℚ) < (2 : ℚ) ^ (Int.log 2 |p| - 7) := zpow_pos (by norm_num) _
    linarith
  have hE' : f32Exponent (p / 500) ≤ f32Exponent p - 8 := by
    have hpos' : (0 : ℚ) < |p / 500| := by
      rw [abs_div]; positivity
    have : Int.log 2 |p / 500| < Int.log 2 |p| - 7 := by
      rw [← Int.lt_zpow_iff_log_lt (by norm_num) hpos']
      exact_mod_cast hq
    rw [hE]
    unfold f32Exponent
    omega
  unfold f32Ulp
  have h256 : ((2 : ℚ) ^ (f32Exponent p - 23)) / 256 = (2 : ℚ) ^ (f32Exponent p - 8 - 23) := by
    rw [show f32Exponent p - 8 - 23 = (f32Exponent p - 23) + (-8) by ring,
      zpow_add₀ (by norm_num)]
    norm_num
    ring
  rw [h256]
  apply zpow_le_zpow_right₀ (by norm_num)
  omega

theorem f32Ulp_le_of_normal (q : ℚ) (h : (2 : ℚ) ^ (-126 : Int) ≤ |q|) :
    f32Ulp q ≤ |q| / 8388608 := by
  have hpos : (0 : ℚ) < |q| := lt_of_lt_of_le (zpow_pos (by norm_num) _) h
  have hlog : -126 ≤ Int.log 2 |q| := by
    rw [← Int.zpow_le_iff_le_log (by norm_num) hpos]
    exact_mod_cast h
  have hE : f32Exponent q = Int.log 2 |q| := by
    unfold f32Exponent
    omega
  have hle : (2 : ℚ) ^ (Int.log 2 |q|) ≤ |q| := by
    have := Int.zpow_log_le_self (by norm_num : 1 < 2) hpos
    exact_mod_cast this
  unfold f32Ulp
  rw [hE, show Int.log 2 |q| - 23 = Int.log 2 |q| + (-23) by ring, zpow_add₀ (by norm_num)]
  have h23 : (2 : ℚ) ^ (-23 : Int) = 1 / 8388608 := by norm_num
  rw [h23]
  have : (0 : ℚ) ≤ 1 / 8388608 := by norm_num
  calc (2 : ℚ) ^ Int.log 2 |q| * (1 / 8388608) ≤ |q| * (1 / 8388608) :=
        mul_le_mul_of_nonneg_right hle this
    _ = |q| / 8388608 := by ring

theorem cellOf_of_bounds (p : ℚ) (k : Int) (hfloat : f32 p = p)
    (hnormal : p = 0 ∨ (2 : ℚ) ^ (-118 : Int) ≤ |p|) (hsmall : |p| < 16777216)
    (hlo : (k : ℚ) * 500 < p) (hhi : p ≤ ((k : ℚ) + 1) * 500) : cellOf p = k := by
  have habs := abs_lt.mp hsmall
  have hq : |p / 500| < 16777216 := by
    rw [abs_div, abs_of_pos (by norm_num : (0 : ℚ) < 500), div_lt_iff₀ (by norm_num)]
    linarith
  have hupper : f32 (p / 500) ≤ ((k + 1 : Int) : ℚ) := by
    apply f32_le_intCast _ _ hq
    rw [div_le_iff₀ (by norm_num)]
    push_cast
    linarith
  have hlower : (k : ℚ) < f32 (p / 500) := by
    rcases hnormal with h0 | hn
    · subst h0
      have hk : (k : ℚ) < 0 := by linarith
      have hz : f32 ((0 : ℚ) / 500) = 0 := by
        have := f32_intCast 0 (by norm_num)
        simpa using this
      rw [hz]
      exact hk
    · apply intCast_lt_f32 _ _ hq
      have hstep := add_ulp_le_of_lt p (k * 500) hfloat hsmall (by push_cast; exact hlo)
      have hdiv := f32Ulp_div_500 p hn
      have hup := f32Ulp_pos p
      push_cast at hstep
      rw [lt_div_iff₀ (by norm_num)]
      nlinarith [hstep, hdiv, hup]
  have hceil : Int.ceil (f32 (p / 500)) = k + 1 := by
    rw [Int.ceil_eq_iff]
    constructor
    · push_cast; linarith
    · exact_mod_cast hupper
  have hk1 : (k : ℚ) < 33555 := by linarith
  have hk2 : (-33556 : ℚ) < k := by linarith
  have hk1' : k < 33555 := by exact_mod_cast hk1
  have hk2' : -33556 < k := by exact_mod_cast hk2
  unfold cellOf
  rw [hceil, show k + 1 - 1 = k by ring]
  exact f32Int_of_lt k (by omega) (by omega)

/-- A positive normal coordinate up to 500 lies in cell 0, whether or not it is itself a
binary32 value. -/
theorem cellOf_zero (p : ℚ) (hlo : (2 : ℚ) ^ (-100 : Int) ≤ p) (hhi : p ≤ 500) :
    cellOf p = 0 := by
  have hp : 0 < p := lt_of_lt_of_le (zpow_pos (by norm_num) _) hlo
  have hqpos : 0 < p / 500 := by positivity
  have hq : |p / 500| < 16777216 := by
    rw [abs_of_pos hqpos, div_lt_iff₀ (by norm_num)]
    linarith
  have hupper : f32 (p / 500) ≤ ((1 : Int) : ℚ) := by
    apply f32_le_intCast _ _ hq
    rw [div_le_iff₀ (by norm_num)]
    push_cast
    linarith
  have hnormal : (2 : ℚ) ^ (-126 : Int) ≤ |p / 500| := by
    rw [abs_of_pos hqpos, le_div_iff₀ (by norm_num)]
    have h1 : (2 : ℚ) ^ (-126 : Int) * 500 ≤ (2 : ℚ) ^ (-100 : Int) := by norm_num
    linarith
  have hlower : ((0 : Int) : ℚ) < f32 (p / 500) := by
    apply intCast_lt_f32 _ _ hq
    have := f32Ulp_le_of_normal (p / 500) hnormal
    rw [abs_of_pos hqpos] at this
    push_cast
    linarith
  have hceil : Int.ceil (f32 (p / 500)) = 1 := by
    rw [Int.ceil_eq_iff]
    constructor
    · simpa using hlower
    · exact_mod_cast hupper
  unfold cellOf
  rw [hceil]
  exact f32Int_of_lt 0 (by norm_num) (by norm_num)

/-- Evaluation of the rounding of an integer once its binade is known. -/
theorem f32Int_eval (n e m : Int) (hlo : (2 : ℚ) ^ e ≤ |(n : ℚ)|)
    (hhi : |(n : ℚ)| < (2 : ℚ) ^ (e + 1)) (he : 23 ≤ e)
    (hm : roundHalfEven ((n : ℚ) / (2 : ℚ) ^ (e - 23)) = m) :
    f32Int n = m * 2 ^ (e - 23).toNat := by
  unfold f32Int
  rw [f32_eval (n : ℚ) e m hlo hhi (by omega) hm]
  have : (2 : ℚ) ^ (e - 23) = ((2 ^ (e - 23).toNat : Int) : ℚ) := by
    push_cast
    rw [← zpow_natCast, Int.toNat_of_nonneg (by omega)]
  rw [this, ← Int.cast_mul, Int.floor_intCast]

/-! ## The sample grid written by `Load` -/

namespace ChunkNode

theorem Load.body_heights (noise : ℚ → ℚ → ℚ) (ox oy : Int) (x y : Nat)
    (st : Image × (Nat → Nat → ℚ)) (i j : Nat) :
    (Load.body noise ox oy x y st).2 i j =
      if i = x ∧ j = y then sampleAt noise ox oy x y else st.2 i j := rfl

theorem Load.inner_prefix_heights (noise : ℚ → ℚ → ℚ) (ox oy : Int) (x : Nat) (n : Nat)
    (st : Image × (Nat → Nat → ℚ)) (i j : Nat) :
    ((List.range n).foldl (fun st y => Load.body noise ox oy x y st) st).2 i j =
      if i = x ∧ j < n then sampleAt noise ox oy i j else st.2 i j := by
  induction n with
  | zero => simp
  | succ n ih =>
    rw [List.range_succ, List.foldl_append]
    simp only [List.foldl_cons, List.foldl_nil]
    rw [Load.body_heights, ih]
    by_cases hx : i = x
    · by_cases hj : j = n
      · subst hx; subst hj
        simp
      · have h2 : (j < n + 1) ↔ (j < n) := by omega
        simp only [hx, hj, and_false, if_false, true_and, h2]
    · simp [hx]

theorem Load.inner_heights (noise : ℚ → ℚ → ℚ) (ox oy : Int) (x : Nat)
    (st : Image × (Nat → Nat → ℚ)) (i j : Nat) :
    (Load.inner noise ox oy x st).2 i j =
      if i = x ∧ j < CHUNK_SIZE then sampleAt noise ox oy i j else st.2 i j :=
  Load.inner_prefix_heights noise ox oy x CHUNK_SIZE st i j

theorem Load.outer_prefix_heights (noise : ℚ → ℚ → ℚ) (ox oy : Int) (m : Nat)
    (st : Image × (Nat → Nat → ℚ)) (i j : Nat) :
    ((List.range m).foldl (fun st x => Load.inner noise ox oy x st) st).2 i j =
      if i < m ∧ j < CHUNK_SIZE then sampleAt noise ox oy i j else st.2 i j := by
  induction m with
  | zero => simp
  | succ m ih =>
    rw [List.range_succ, List.foldl_append]
    simp only [List.foldl_cons, List.foldl_nil]
    rw [Load.inner_heights, ih]
    by_cases hj : j < CHUNK_SIZE
    · by_cases hi : i = m
      · simp [hi, hj]
      · have h2 : (i < m + 1) ↔ (i < m) := by omega
        simp [hi, hj, h2]
    · simp [hj]

/-- Every cell of the sample grid is written by `Load`, with the height computed at the
world offset `location * (CHUNK_SIZE - 1)` plus the cell index. -/
theorem Load_heights (noise : ℚ → ℚ → ℚ) (c : ChunkNode) (i j : Nat)
    (hi : i < CHUNK_SIZE) (hj : j < CHUNK_SIZE) :
    (c.Load noise).heights i j =
      sampleAt noise (castInt (f32Int (c.location.x * ((CHUNK_SIZE : Int) - 1))))
        (castInt (f32Int (c.location.y * ((CHUNK_SIZE : Int) - 1)))) i j := by
  simp only [Load, Load.outer]
  rw [Load.outer_prefix_heights]
  simp [hi, hj]

end ChunkNode

/-! ## The erase loop of `UnloadFarAreas` -/

namespace InfinityWorld

/-- The loop, started with the iterator behind the entries `p` and in front of the
entries `q`, keeps `p`, filters `q`, dereferences each entry of `q` once and in order,
hands the far entries of `q` to `Unload`, and stops with the iterator at the end. -/
theorem UnloadFarAreas.loop_spec (v : Vector2) (q : List Area) :
    ∀ (p visited unloaded : List Area),
      UnloadFarAreas.loop v ⟨p ++ q, p.length, visited, unloaded⟩ =
        ⟨p ++ q.filter (staysNear v), (p ++ q.filter (staysNear v)).length,
          visited ++ q,
          unloaded ++ (q.filter (fun a => Vector2DistanceExceeds v a.location 2)).map Unload⟩ := by
  induction q with
  | nil =>
    intro p visited unloaded
    rw [UnloadFarAreas.loop]
    simp
  | cons a q ih =>
    intro p visited unloaded
    rw [UnloadFarAreas.loop]
    have hlt : p.length < (p ++ a :: q).length := by simp
    have hget : (p ++ a :: q).get ⟨p.length, hlt⟩ = a := by
      rw [List.get_eq_getElem, List.getElem_append_right (le_refl _)]
      simp
    simp only [hlt, dite_true, hget]
    by_cases hfar : Vector2DistanceExceeds v a.location 2 = true
    · have herase : (p ++ a :: q).eraseIdx p.length = p ++ q := by
        rw [List.eraseIdx_append_of_length_le (le_refl _)]
        simp
      simp only [hfar, if_true, herase]
      rw [ih p (visited ++ [a]) (unloaded ++ [Unload a])]
      simp [staysNear, hfar]
    · have hstep : p ++ a :: q = (p ++ [a]) ++ q := by simp
      have hlen : p.length + 1 = (p ++ [a]).length := by simp
      simp only [hfar, if_false, Bool.false_eq_true]
      rw [hstep, hlen, ih (p ++ [a]) (visited ++ [a]) unloaded]
      simp [staysNear, hfar]

/-- The vector after `UnloadFarAreas` is the vector before, filtered. -/
theorem UnloadFarAreas_areas (w : InfinityWorld) (pos : Vector3) :
    (w.UnloadFarAreas pos).areas =
      w.areas.filter (staysNear (GetChunkLocationByPosition pos)) := by
  have h := UnloadFarAreas.loop_spec (GetChunkLocationByPosition pos) w.areas [] [] []
  simp only [List.nil_append, List.length_nil] at h
  simp [UnloadFarAreas, h]

end InfinityWorld


/-! ## Lists of locations -/

theorem Vector2.eq_iff (a b : Vector2) : a = b ↔ a.x = b.x ∧ a.y = b.y := by
  cases a; cases b; simp

theorem mem_insertLocation (l : List Vector2) (c d : Vector2) :
    d ∈ insertLocation l c ↔ d ∈ l ∨ d = c := by
  unfold insertLocation
  by_cases h : c ∈ l
  · simp only [h, if_true]
    constructor
    · intro hd; exact Or.inl hd
    · rintro (hd | hd)
      · exact hd
      · rw [hd]; exact h
  · simp [h]

theorem nodup_insertLocation (l : List Vector2) (c : Vector2) (h : l.Nodup) :
    (insertLocation l c).Nodup := by
  unfold insertLocation
  by_cases hc : c ∈ l
  · simp [hc, h]
  · simp only [hc, if_false]
    rw [List.nodup_append]
    refine ⟨h, List.nodup_singleton c, ?_⟩
    intro a ha hb
    rw [List.mem_singleton] at hb
    exact hc (hb ▸ ha)

theorem mem_foldl_insertLocation (ds : List Vector2) :
    ∀ (l : List Vector2) (d : Vector2), d ∈ ds.foldl insertLocation l ↔ d ∈ l ∨ d ∈ ds := by
  induction ds with
  | nil => intro l d; simp
  | cons c ds ih =>
    intro l d
    rw [List.foldl_cons, ih, mem_insertLocation, List.mem_cons]
    tauto

theorem nodup_foldl_insertLocation (ds : List Vector2) :
    ∀ (l : List Vector2), l.Nodup → (ds.foldl insertLocation l).Nodup := by
  induction ds with
  | nil => intro l h; simpa using h
  | cons c ds ih =>
    intro l h
    rw [List.foldl_cons]
    exact ih _ (nodup_insertLocation l c h)

theorem foldl_insertLocation_fresh (ds : List Vector2) :
    ∀ (l : List Vector2), ds.Nodup → (∀ d ∈ ds, d ∉ l) →
      ds.foldl insertLocation l = l ++ ds := by
  induction ds with
  | nil => intro l _ _; simp
  | cons c ds ih =>
    intro l hnd hfresh
    have hc : c ∉ l := hfresh c (List.mem_cons_self c ds)
    have hins : insertLocation l c = l ++ [c] := by simp [insertLocation, hc]
    rw [List.foldl_cons, hins, ih (l ++ [c]) (List.nodup_cons.mp hnd).2]
    · simp
    · intro d hd hmem
      rcases List.mem_append.mp hmem with h | h
      · exact hfresh d (List.mem_cons_of_mem c hd) h
      · rw [List.mem_singleton] at h
        exact (List.nodup_cons.mp hnd).1 (h ▸ hd)

/-! ## Lookup by `(int)` casts -/

theorem castInt_of_inRange (v : Int) (h : -2147483648 ≤ v ∧ v < 2147483648) : castInt v = v := by
  simp [castInt, h]

theorem castKey_inj (a b : Vector2) (ha : InIntRange a) (hb : InIntRange b)
    (h : castKey a = castKey b) : a = b := by
  simp only [castKey, Prod.mk.injEq] at h
  rw [castInt_of_inRange a.x ha.1, castInt_of_inRange b.x hb.1,
    castInt_of_inRange a.y ha.2, castInt_of_inRange b.y hb.2] at h
  exact (Vector2.eq_iff a b).mpr h

theorem inIntRange_of_inExactRange (c : Vector2) (h : InExactRange c) : InIntRange c := by
  unfold InExactRange at h
  unfold InIntRange
  omega

theorem insertKeyed_eq_insertLocation (l : List Vector2) (c : Vector2)
    (hl : ∀ d ∈ l, InIntRange d) (hc : InIntRange c) :
    insertKeyed l c = insertLocation l c := by
  have hiff : castKey c ∈ l.map castKey ↔ c ∈ l := by
    constructor
    · intro h
      obtain ⟨d, hd, hkey⟩ := List.mem_map.mp h
      rw [← castKey_inj d c (hl d hd) hc hkey]
      exact hd
    · intro h
      exact List.mem_map.mpr ⟨c, h, rfl⟩
  unfold insertKeyed insertLocation
  by_cases h : c ∈ l
  · simp [h, hiff.mpr h]
  · have h' : castKey c ∉ l.map castKey := fun hk => h (hiff.mp hk)
    simp [h, h']

theorem inIntRange_insertLocation (l : List Vector2) (c : Vector2)
    (hl : ∀ d ∈ l, InIntRange d) (hc : InIntRange c) :
    ∀ d ∈ insertLocation l c, InIntRange d := by
  intro d hd
  rcases (mem_insertLocation l c d).mp hd with h | h
  · exact hl d h
  · rw [h]; exact hc

theorem foldl_insertKeyed_eq (ds : List Vector2) :
    ∀ (l : List Vector2), (∀ d ∈ l, InIntRange d) → (∀ d ∈ ds, InIntRange d) →
      ds.foldl insertKeyed l = ds.foldl insertLocation l := by
  induction ds with
  | nil => intro l _ _; rfl
  | cons c ds ih =>
    intro l hl hds
    have hc : InIntRange c := hds c (List.mem_cons_self c ds)
    rw [List.foldl_cons, List.foldl_cons, insertKeyed_eq_insertLocation l c hl hc]
    exact ih _ (inIntRange_insertLocation l c hl hc)
      (fun d hd => hds d (List.mem_cons_of_mem c hd))

theorem nodup_keys_insertKeyed (l : List Vector2) (c : Vector2)
    (h : (l.map castKey).Nodup) : ((insertKeyed l c).map castKey).Nodup := by
  unfold insertKeyed
  by_cases hc : castKey c ∈ l.map castKey
  · simp only [hc, if_true]
    exact h
  · simp only [hc, if_false, List.map_append, List.map_cons, List.map_nil]
    rw [List.nodup_append]
    refine ⟨h, List.nodup_singleton _, ?_⟩
    intro a ha hb
    rw [List.mem_singleton] at hb
    exact hc (hb ▸ ha)

theorem nodup_keys_foldl_insertKeyed (ds : List Vector2) :
    ∀ (l : List Vector2), (l.map castKey).Nodup →
      ((ds.foldl insertKeyed l).map castKey).Nodup := by
  induction ds with
  | nil => intro l h; simpa using h
  | cons c ds ih =>
    intro l h
    rw [List.foldl_cons]
    exact ih _ (nodup_keys_insertKeyed l c h)

/-- Below 2^24 - 1 the locations `LoadNeighbours` computes are the eight neighbours. -/
theorem loadedNeighbours_eq (c : Vector2) (h : InExactRange c) :
    loadedNeighbours c = neighbours c := by
  unfold InExactRange at h
  unfold loadedNeighbours neighbours
  rw [f32Int_of_lt (c.x + 1) (by omega) (by omega), f32Int_of_lt (c.x - 1) (by omega) (by omega),
    f32Int_of_lt (c.y + 1) (by omega) (by omega), f32Int_of_lt (c.y - 1) (by omega) (by omega)]

theorem inIntRange_block (c : Vector2) (h : InExactRange c) : ∀ d ∈ block c, InIntRange d := by
  intro d hd
  unfold InExactRange at h
  simp only [block, neighbours, List.mem_cons, List.mem_nil_iff, or_false] at hd
  unfold InIntRange
  rcases hd with hd | hd | hd | hd | hd | hd | hd | hd | hd <;> subst hd <;>
    (try dsimp only) <;> omega

/-! ## Lookup, load and eviction in terms of locations -/

namespace InfinityWorld

theorem GetAreaByLocalPos_eq_none_iff (w : InfinityWorld) (pos : Vector2) :
    w.GetAreaByLocalPos pos = none ↔ castKey pos ∉ w.locations.map castKey := by
  simp only [GetAreaByLocalPos, locations, List.find?_eq_none, List.mem_map, not_exists,
    not_and, Bool.and_eq_true, decide_eq_true_eq, castKey, Prod.mk.injEq,
    exists_exists_and_eq_and]

theorem GetAreaByLocalPos_some (w : InfinityWorld) (pos : Vector2) (a : Area)
    (h : w.GetAreaByLocalPos pos = some a) :
    a ∈ w.areas ∧ castKey a.location = castKey pos := by
  unfold GetAreaByLocalPos at h
  refine ⟨List.mem_of_find?_eq_some h, ?_⟩
  have hp := List.find?_some h
  simp only [Bool.and_eq_true, decide_eq_true_eq] at hp
  simp only [castKey, Prod.mk.injEq]
  exact hp

/-- When the lookup succeeds, `LoadOrGetAreaByLocation` returns what it found and leaves
the world as it was. -/
theorem LoadOrGet_found (noise : ℚ → ℚ → ℚ) (storage : ChunkNode) (w : InfinityWorld)
    (c : Vector2) (a : Area) (h : w.GetAreaByLocalPos c = some a) :
    w.LoadOrGetAreaByLocation noise storage c = (a, w) := by
  simp [LoadOrGetAreaByLocation, h]

/-- When the lookup fails, `LoadOrGetAreaByLocation` constructs and loads one chunk,
appends the area built from it and logs one generation. -/
theorem LoadOrGet_missing (noise : ℚ → ℚ → ℚ) (storage : ChunkNode) (w : InfinityWorld)
    (c : Vector2) (h : w.GetAreaByLocalPos c = none) :
    w.LoadOrGetAreaByLocation noise storage c =
      (freshArea noise storage c,
        ⟨w.areas ++ [freshArea noise storage c], w.log ++ [Event.generated c]⟩) := by
  simp only [LoadOrGetAreaByLocation, h]
  rfl

theorem freshArea_location (noise : ℚ → ℚ → ℚ) (storage : ChunkNode) (c : Vector2) :
    (freshArea noise storage c).location = c := rfl

theorem LoadOrGet_locations (noise : ℚ → ℚ → ℚ) (storage : ChunkNode) (w : InfinityWorld)
    (c : Vector2) :
    (w.LoadOrGetAreaByLocation noise storage c).2.locations = insertKeyed w.locations c := by
  cases hfind : w.GetAreaByLocalPos c with
  | none =>
    have hc := (GetAreaByLocalPos_eq_none_iff w c).mp hfind
    rw [LoadOrGet_missing noise storage w c hfind]
    simp only [insertKeyed, hc, if_false]
    simp [locations, freshArea_location]
  | some a =>
    have hc : castKey c ∈ w.locations.map castKey := by
      by_contra hcon
      rw [(GetAreaByLocalPos_eq_none_iff w c).mpr hcon] at hfind
      exact Option.noConfusion hfind
    rw [LoadOrGet_found noise storage w c a hfind]
    simp [insertKeyed, hc]

/-- The area handed back carries the `(int)` casts of the requested location. -/
theorem LoadOrGet_fst_key (noise : ℚ → ℚ → ℚ) (storage : ChunkNode) (w : InfinityWorld)
    (c : Vector2) :
    castKey (w.LoadOrGetAreaByLocation noise storage c).1.location = castKey c := by
  cases hfind : w.GetAreaByLocalPos c with
  | none =>
    rw [LoadOrGet_missing noise storage w c hfind]
    rfl
  | some a =>
    rw [LoadOrGet_found noise storage w c a hfind]
    exact (GetAreaByLocalPos_some w c a hfind).2

theorem LoadOrGet_fst_mem (noise : ℚ → ℚ → ℚ) (storage : ChunkNode) (w : InfinityWorld)
    (c : Vector2) :
    (w.LoadOrGetAreaByLocation noise storage c).1 ∈
      (w.LoadOrGetAreaByLocation noise storage c).2.areas := by
  cases hfind : w.GetAreaByLocalPos c with
  | none =>
    rw [LoadOrGet_missing noise storage w c hfind]
    simp
  | some a =>
    rw [LoadOrGet_found noise storage w c a hfind]
    exact (GetAreaByLocalPos_some w c a hfind).1

/-- Inside the range of `int` the area handed back is at the requested location. -/
theorem LoadOrGet_fst_location (noise : ℚ → ℚ → ℚ) (storage : ChunkNode) (w : InfinityWorld)
    (c : Vector2) (hw : ∀ d ∈ w.locations, InIntRange d) (hc : InIntRange c) :
    (w.LoadOrGetAreaByLocation noise storage c).1.location = c := by
  cases hfind : w.GetAreaByLocalPos c with
  | none =>
    rw [LoadOrGet_missing noise storage w c hfind]
    rfl
  | some a =>
    rw [LoadOrGet_found noise storage w c a hfind]
    have ha := GetAreaByLocalPos_some w c a hfind
    exact castKey_inj _ _ (hw _ (List.mem_map.mpr ⟨a, ha.1, rfl⟩)) hc ha.2

theorem LoadNeighbours_locations (noise : ℚ → ℚ → ℚ) (storage : ChunkNode)
    (w : InfinityWorld) (area : Area) :
    (w.LoadNeighbours noise storage area).locations =
      (loadedNeighbours area.location).foldl insertKeyed w.locations := by
  simp only [LoadNeighbours, LoadOrGet_locations, loadedNeighbours, List.foldl_cons,
    List.foldl_nil]

theorem loadBlock_locations_keyed (noise : ℚ → ℚ → ℚ) (storage : ChunkNode)
    (w : InfinityWorld) (c : Vector2) :
    (w.loadBlock noise storage c).locations =
      (loadedNeighbours (w.LoadOrGetAreaByLocation noise storage c).1.location).foldl
        insertKeyed (insertKeyed w.locations c) := by
  rw [loadBlock, LoadNeighbours_locations, LoadOrGet_locations]

/-- With the cache inside the range of `int` and the centre below 2^24 - 1, the load step
appends the missing cells of the 3x3 block, centre first. -/
theorem loadBlock_locations (noise : ℚ → ℚ → ℚ) (storage : ChunkNode) (w : InfinityWorld)
    (c : Vector2) (hw : ∀ d ∈ w.locations, InIntRange d) (hc : InExactRange c) :
    (w.loadBlock noise storage c).locations = (block c).foldl insertLocation w.locations := by
  have hci := inIntRange_of_inExactRange c hc
  have hblock := inIntRange_block c hc
  rw [loadBlock_locations_keyed, LoadOrGet_fst_location noise storage w c hw hci,
    loadedNeighbours_eq c hc, insertKeyed_eq_insertLocation _ _ hw hci,
    foldl_insertKeyed_eq (neighbours c) _ (inIntRange_insertLocation _ _ hw hci)
      (fun d hd => hblock d (List.mem_cons_of_mem c hd))]
  simp only [block, List.foldl_cons]

theorem UnloadFarAreas_locations (w : InfinityWorld) (pos : Vector3) :
    (w.UnloadFarAreas pos).locations =
      w.locations.filter
        (fun d => !Vector2DistanceExceeds (GetChunkLocationByPosition pos) d 2) := by
  rw [locations, UnloadFarAreas_areas, locations, List.filter_map]
  rfl

theorem UnloadAll_locations (w : InfinityWorld) : w.UnloadAll.locations = [] := rfl

theorem nodup_keys_apply (noise : ℚ → ℚ → ℚ) (storage : ChunkNode) (w : InfinityWorld)
    (op : Op) (h : (w.locations.map castKey).Nodup) :
    ((op.apply noise storage w).locations.map castKey).Nodup := by
  cases op with
  | loadOrGet location =>
    simp only [Op.apply, LoadOrGet_locations]
    exact nodup_keys_insertKeyed _ _ h
  | loadNeighbours area =>
    simp only [Op.apply, LoadNeighbours_locations]
    exact nodup_keys_foldl_insertKeyed _ _ h
  | getArea pos =>
    simp only [Op.apply, GetArea, LoadOrGet_locations]
    exact nodup_keys_insertKeyed _ _ h
  | unloadFar pos =>
    simp only [Op.apply, UnloadFarAreas_locations]
    exact h.sublist (List.Sublist.map _ (List.filter_sublist _))
  | unloadAll =>
    simp only [Op.apply, UnloadAll_locations]
    exact List.nodup_nil

theorem nodup_keys_run (noise : ℚ → ℚ → ℚ) (storage : ChunkNode) (ops : List Op) :
    ∀ (w : InfinityWorld), (w.locations.map castKey).Nodup →
      ((w.run noise storage ops).locations.map castKey).Nodup := by
  induction ops with
  | nil => intro w h; exact h
  | cons op ops ih =>
    intro w h
    simp only [run, List.foldl_cons]
    exact ih _ (nodup_keys_apply noise storage w op h)

/-- No location occurs twice in a cache that was built from the empty one. -/
theorem nodup_run (noise : ℚ → ℚ → ℚ) (storage : ChunkNode) (ops : List Op) :
    ((InfinityWorld.empty).run noise storage ops).locations.Nodup :=
  List.Nodup.of_map castKey (nodup_keys_run noise storage ops InfinityWorld.empty List.nodup_nil)

end InfinityWorld

/-! ## Position to cell -/

theorem scaleOffset_cast : ((Area.scaleOffset : Nat) : ℚ) = 500 := by
  simp only [Area.scaleOffset, CHUNK_SIZE, CHUNK_TO_MESH_SCALE]
  norm_num

theorem GetChunkLocationByPosition_eq (p : Vector3) :
    InfinityWorld.GetChunkLocationByPosition p = ⟨cellOf p.x, cellOf p.z⟩ := by
  unfold InfinityWorld.GetChunkLocationByPosition cellOf
  rw [scaleOffset_cast]

namespace ChunkNode

theorem Unload_of_not_loaded (c : ChunkNode) (h : c.isLoaded = false) : c.Unload = c := by
  simp [Unload, h]

theorem Unload_of_loaded (c : ChunkNode) (h : c.isLoaded = true) :
    c.Unload = ⟨c.location, c.heightMap, c.heights, false, c.generated, c.released + 1⟩ := by
  simp [Unload, h]

theorem Load_isLoaded (noise : ℚ → ℚ → ℚ) (c : ChunkNode) :
    (c.Load noise).isLoaded = true := by
  simp only [Load]

theorem Load_generated (noise : ℚ → ℚ → ℚ) (c : ChunkNode) :
    (c.Load noise).generated = c.generated + 1 := by
  simp only [Load]

theorem Load_released (noise : ℚ → ℚ → ℚ) (c : ChunkNode) :
    (c.Load noise).released = c.released := by
  cases c
  simp only [Load]

/-- Every call keeps: an image is released only if one was generated before, and a chunk
flagged as loaded still owns an unreleased image. -/
theorem balance_apply (noise : ℚ → ℚ → ℚ) (c : ChunkNode) (op : ChunkOp)
    (h : c.released + (if c.isLoaded then 1 else 0) ≤ c.generated) :
    (op.apply noise c).released + (if (op.apply noise c).isLoaded then 1 else 0) ≤
      (op.apply noise c).generated := by
  cases op with
  | load =>
    simp only [ChunkOp.apply, Load_isLoaded, Load_generated, Load_released, if_true]
    split at h <;> omega
  | unload =>
    cases hl : c.isLoaded
    · simpa [ChunkOp.apply, Unload_of_not_loaded c hl, hl] using h
    · simp only [ChunkOp.apply, Unload_of_loaded c hl]
      simp only [hl, if_true] at h
      simpa using h
  | destroy =>
    cases hl : c.isLoaded
    · simpa [ChunkOp.apply, destroy, Unload_of_not_loaded c hl, hl] using h
    · simp only [ChunkOp.apply, destroy, Unload_of_loaded c hl]
      simp only [hl, if_true] at h
      simpa using h

theorem balance_run (noise : ℚ → ℚ → ℚ) (ops : List ChunkOp) :
    ∀ (c : ChunkNode), c.released + (if c.isLoaded then 1 else 0) ≤ c.generated →
      (c.run noise ops).released + (if (c.run noise ops).isLoaded then 1 else 0) ≤
        (c.run noise ops).generated := by
  induction ops with
  | nil => intro c h; exact h
  | cons op ops ih =>
    intro c h
    simp only [run, List.foldl_cons]
    exact ih _ (balance_apply noise c op h)

/-- On storage whose flag happens to read "loaded", a chunk that is constructed and
destroyed without a Load hands an image to UnloadImage that was never generated: the
lifecycle statements therefore start from storage that reads "not loaded". -/
theorem construct_destroy_on_dirty_storage :
    ((construct ⟨0, 0⟩ dirtyStorage).run flatNoise [ChunkOp.destroy]).released = 1 ∧
    ((construct ⟨0, 0⟩ dirtyStorage).run flatNoise [ChunkOp.destroy]).generated = 0 :=
  ⟨rfl, rfl⟩

end ChunkNode

/-! ## Counting entries -/

theorem length_filter_location_le_one (l : List Area) (c : Vector2)
    (h : (l.map Area.location).Nodup) :
    (l.filter (fun a => decide (a.location = c))).length ≤ 1 := by
  induction l with
  | nil => simp
  | cons a l ih =>
    rw [List.map_cons, List.nodup_cons] at h
    by_cases hc : a.location = c
    · have hnone : l.filter (fun a => decide (a.location = c)) = [] := by
        rw [List.filter_eq_nil_iff]
        intro b hb hbc
        simp only [decide_eq_true_eq] at hbc
        exact h.1 (List.mem_map.mpr ⟨b, hb, hbc.trans hc.symm⟩)
      simp [List.filter_cons, hc, hnone]
    · simp only [List.filter_cons, hc, decide_False, Bool.false_eq_true, if_false]
      exact ih h.2

/-- A location not farther than 2 from `v` is `v` plus one of the thirteen offsets. -/
theorem mem_nearOffsets_of_near (v d : Vector2) (h : Vector2DistanceSqr v d ≤ 4) :
    d ∈ nearOffsets.map (fun o => (⟨v.x + o.x, v.y + o.y⟩ : Vector2)) := by
  obtain ⟨vx, vy⟩ := v
  obtain ⟨dx, dy⟩ := d
  simp only [Vector2DistanceSqr] at h
  obtain ⟨a, ha⟩ : ∃ a, a = vx - dx := ⟨_, rfl⟩
  obtain ⟨b, hb⟩ : ∃ b, b = vy - dy := ⟨_, rfl⟩
  rw [← ha, ← hb] at h
  have ha1 : -2 ≤ a := by nlinarith [mul_self_nonneg b]
  have ha2 : a ≤ 2 := by nlinarith [mul_self_nonneg b]
  have hb1 : -2 ≤ b := by nlinarith [mul_self_nonneg a]
  have hb2 : b ≤ 2 := by nlinarith [mul_self_nonneg a]
  simp only [nearOffsets, List.map_cons, List.map_nil, List.mem_cons, Vector2.mk.injEq,
    List.mem_nil_iff, or_false]
  interval_cases a <;> interval_cases b <;> first
    | (exfalso; revert h; decide)
    | omega

/-- A duplicate-free list of locations all within distance 2 of `v` has at most 13
members. -/
theorem length_le_thirteen (v : Vector2) (l : List Vector2) (hnd : l.Nodup)
    (hnear : ∀ d ∈ l, Vector2DistanceSqr v d ≤ 4) : l.length ≤ 13 := by
  have hsub : l ⊆ nearOffsets.map (fun o => (⟨v.x + o.x, v.y + o.y⟩ : Vector2)) :=
    fun d hd => mem_nearOffsets_of_near v d (hnear d hd)
  have hlen := (List.Nodup.subperm hnd hsub).length_le
  simpa [nearOffsets] using hlen

theorem staysNear_iff (v : Vector2) (a : Area) :
    InfinityWorld.staysNear v a = true ↔ Vector2DistanceSqr v a.location ≤ 4 := by
  simp [InfinityWorld.staysNear, Vector2DistanceExceeds]

theorem generations_append_generated (w : InfinityWorld) (areas : List Area) (c : Vector2) :
    InfinityWorld.generations ⟨areas, w.log ++ [Event.generated c]⟩ = w.generations + 1 := by
  simp [InfinityWorld.generations, List.countP_append]

/-! ## The 3x3 block -/

theorem nodup_block (c : Vector2) : (block c).Nodup := by
  obtain ⟨x, y⟩ := c
  simp only [block, neighbours, List.nodup_cons, List.mem_cons, Vector2.mk.injEq,
    List.mem_nil_iff, List.not_mem_nil, List.nodup_nil, or_false, not_false_eq_true, and_true]
  omega

theorem length_block (c : Vector2) : (block c).length = 9 := rfl

/-- Every cell of the block around `c` is within squared distance 2 of `c`. -/
theorem block_near (c d : Vector2) (h : d ∈ block c) : Vector2DistanceSqr c d ≤ 2 := by
  obtain ⟨x, y⟩ := c
  simp only [block, neighbours, List.mem_cons, List.mem_nil_iff, or_false] at h
  rcases h with h | h | h | h | h | h | h | h | h <;> subst h <;>
    simp only [Vector2DistanceSqr] <;> ring_nf <;> norm_num

namespace InfinityWorld

theorem length_areas (w : InfinityWorld) : w.areas.length = w.locations.length := by
  simp [locations]

end InfinityWorld

theorem mainLoopIteration_locations (noise : ℚ → ℚ → ℚ) (storage : ChunkNode)
    (world : InfinityWorld) (position updated : Vector3)
    (hw : ∀ d ∈ world.locations, InIntRange d)
    (hc : InExactRange (InfinityWorld.GetChunkLocationByPosition position)) :
    (mainLoopIteration noise storage world position updated).locations =
      ((block (InfinityWorld.GetChunkLocationByPosition position)).foldl insertLocation
        world.locations).filter
        (fun d => !Vector2DistanceExceeds
          (InfinityWorld.GetChunkLocationByPosition updated) d 2) := by
  rw [mainLoopIteration, InfinityWorld.UnloadFarAreas_locations]
  exact congrArg _ (InfinityWorld.loadBlock_locations noise storage world _ hw hc)

/-! ## Concrete roundings and cells used by the examples -/

theorem f32_ofInt (n : Int) (q : ℚ) (hq : q = (n : ℚ)) (h1 : -16777216 < n) (h2 : n < 16777216) :
    f32 q = q := by
  rw [hq]
  exact f32_intCast n (by rw [abs_lt]; constructor <;> norm_cast)

theorem f32Int_16777217 : f32Int 16777217 = 16777216 := by
  have h := f32Int_eval 16777217 24 8388608 (by norm_num) (by norm_num) (by norm_num)
    (by
      have := roundHalfEven_tie 8388608
      norm_num at this ⊢
      exact this)
  simpa using h

theorem f32Int_16777233 : f32Int 16777233 = 16777232 := by
  have h := f32Int_eval 16777233 24 8388616 (by norm_num) (by norm_num) (by norm_num)
    (by
      have := roundHalfEven_tie 8388616
      norm_num at this ⊢
      exact this)
  simpa using h

theorem f32Int_16777332 : f32Int 16777332 = 16777332 := by
  have h := f32Int_eval 16777332 24 8388666 (by norm_num) (by norm_num) (by norm_num)
    (by
      have := roundHalfEven_intCast 8388666
      norm_num at this ⊢
      exact this)
  simpa using h

theorem cell_499 : cellOf 499 = 0 :=
  cellOf_of_bounds 499 0 (f32_ofInt 499 499 (by norm_num) (by norm_num) (by norm_num))
    (Or.inr (by norm_num)) (by norm_num) (by norm_num) (by norm_num)

theorem cell_500 : cellOf 500 = 0 :=
  cellOf_of_bounds 500 0 (f32_ofInt 500 500 (by norm_num) (by norm_num) (by norm_num))
    (Or.inr (by norm_num)) (by norm_num) (by norm_num) (by norm_num)

theorem cell_504 : cellOf 504 = 1 :=
  cellOf_of_bounds 504 1 (f32_ofInt 504 504 (by norm_num) (by norm_num) (by norm_num))
    (Or.inr (by norm_num)) (by norm_num) (by norm_num) (by norm_num)

theorem inExactRange_origin : InExactRange ⟨0, 0⟩ := by
  unfold InExactRange
  decide

theorem offset_exact (x : Int) (h1 : -169466 ≤ x) (h2 : x ≤ 169466) :
    castInt (f32Int (x * ((CHUNK_SIZE : Int) - 1))) = x * 99 := by
  have h99 : x * ((CHUNK_SIZE : Int) - 1) = x * 99 := by simp [CHUNK_SIZE]
  rw [h99, f32Int_of_lt (x * 99) (by omega) (by omega)]
  exact castInt_of_inRange _ (by omega)

theorem generations_missing (noise : ℚ → ℚ → ℚ) (storage : ChunkNode) (w : InfinityWorld)
    (c : Vector2) (h : w.GetAreaByLocalPos c = none) :
    (w.LoadOrGetAreaByLocation noise storage c).2.generations = w.generations + 1 := by
  rw [InfinityWorld.LoadOrGet_missing noise storage w c h]
  exact generations_append_generated w _ c

/-- A second request right after a first finds the entry the first one returned. -/
theorem LoadOrGet_twice (noise : ℚ → ℚ → ℚ) (storage : ChunkNode) (w : InfinityWorld)
    (c : Vector2) :
    (w.LoadOrGetAreaByLocation noise storage c).2.LoadOrGetAreaByLocation noise storage c =
      w.LoadOrGetAreaByLocation noise storage c := by
  cases hfind : w.GetAreaByLocalPos c with
  | none =>
    rw [InfinityWorld.LoadOrGet_missing noise storage w c hfind]
    apply InfinityWorld.LoadOrGet_found
    unfold InfinityWorld.GetAreaByLocalPos at hfind ⊢
    simp only [List.find?_append, hfind, Option.none_or]
    simp [List.find?_cons, InfinityWorld.freshArea_location]
  | some a =>
    rw [InfinityWorld.LoadOrGet_found noise storage w c a hfind]
    exact InfinityWorld.LoadOrGet_found noise storage w c a hfind

/-- A resident location is found by the lookup. -/
theorem lookup_of_resident (w : InfinityWorld) (c : Vector2) (hc : c ∈ w.locations) :
    ∃ a ∈ w.areas, castKey a.location = castKey c ∧ w.GetAreaByLocalPos c = some a := by
  cases hfind : w.GetAreaByLocalPos c with
  | none =>
    exact absurd (List.mem_map.mpr ⟨c, hc, rfl⟩)
      ((InfinityWorld.GetAreaByLocalPos_eq_none_iff w c).mp hfind)
  | some a =>
    have := InfinityWorld.GetAreaByLocalPos_some w c a hfind
    exact ⟨a, this.1, this.2, rfl⟩

/-- The load step at the centre (16777216, 0) on the empty cache: `16777216 + 1` rounds to
`16777216`, so three of the eight requests find an entry and six locations result. -/
theorem loadBlock_at_16777216 (noise : ℚ → ℚ → ℚ) (storage : ChunkNode) :
    ((InfinityWorld.empty).loadBlock noise storage ⟨16777216, 0⟩).locations =
      [⟨16777216, 0⟩, ⟨16777216, -1⟩, ⟨16777216, 1⟩, ⟨16777215, 1⟩, ⟨16777215, 0⟩,
        ⟨16777215, -1⟩] := by
  have hup : f32Int (16777216 + 1) = 16777216 := f32Int_16777217
  have hdown : f32Int (16777216 - 1) = 16777215 := f32Int_of_lt _ (by norm_num) (by norm_num)
  have hone : f32Int (0 + 1) = 1 := f32Int_of_lt _ (by norm_num) (by norm_num)
  have hmone : f32Int (0 - 1) = -1 := f32Int_of_lt _ (by norm_num) (by norm_num)
  rw [InfinityWorld.loadBlock_locations_keyed,
    InfinityWorld.LoadOrGet_missing noise storage InfinityWorld.empty ⟨16777216, 0⟩ rfl]
  simp only [InfinityWorld.freshArea_location, loadedNeighbours, hup, hdown, hone, hmone,
    InfinityWorld.empty, InfinityWorld.locations, List.map_nil]
  decide

theorem f32_8388609024 : f32 8388609024 = 8388609024 := by
  rw [f32_eval 8388609024 32 16384002 (by norm_num) (by norm_num) (by norm_num)
    (by
      have := roundHalfEven_intCast 16384002
      norm_num at this ⊢
      exact this)]
  norm_num

theorem cell_8388609024 : cellOf 8388609024 = 16777216 := by
  have h : f32 ((8388609024 : ℚ) / 500) = 16777218 := by
    rw [f32_eval ((8388609024 : ℚ) / 500) 24 8388609 (by norm_num [abs_of_pos])
      (by norm_num [abs_of_pos]) (by norm_num)
      (roundHalfEven_eq _ _ (by norm_num) (by norm_num))]
    norm_num
  have hceil : Int.ceil (16777218 : ℚ) = 16777218 := by
    exact_mod_cast Int.ceil_intCast (16777218 : Int)
  unfold cellOf
  rw [h, hceil]
  exact f32Int_16777217

theorem cell_1 : cellOf 1 = 0 :=
  cellOf_of_bounds 1 0 (f32_ofInt 1 1 (by norm_num) (by norm_num) (by norm_num))
    (Or.inr (by norm_num)) (by norm_num) (by norm_num) (by norm_num)

/-- Why the statements about the 3x3 block carry a bound on the cell: with the camera at
the binary32 position x = 8388609024 its cell is (16777216, 0), the east neighbour
(16777217, 0) of that cell is at distance 1, and yet it is not resident after an iteration
in which the camera does not move, because `LoadNeighbours` computes 16777216 + 1 =
16777216 and requests the centre again. -/
theorem east_neighbour_not_loaded_at_16777216 :
    f32 8388609024 = 8388609024 ∧
    InfinityWorld.GetChunkLocationByPosition ⟨8388609024, 10, 1⟩ = ⟨16777216, 0⟩ ∧
    (⟨16777217, 0⟩ : Vector2) ∈ block ⟨16777216, 0⟩ ∧
    Vector2DistanceSqr ⟨16777216, 0⟩ ⟨16777217, 0⟩ ≤ 4 ∧
    (⟨16777217, 0⟩ : Vector2) ∉
      (mainLoopIteration flatNoise clearStorage InfinityWorld.empty ⟨8388609024, 10, 1⟩
        ⟨8388609024, 10, 1⟩).locations := by
  have hcell : InfinityWorld.GetChunkLocationByPosition ⟨8388609024, 10, 1⟩ = ⟨16777216, 0⟩ := by
    rw [GetChunkLocationByPosition_eq, cell_8388609024, cell_1]
  refine ⟨f32_8388609024, hcell, by decide, by decide, ?_⟩
  have hloc : (mainLoopIteration flatNoise clearStorage InfinityWorld.empty
      ⟨8388609024, 10, 1⟩ ⟨8388609024, 10, 1⟩).locations =
      (((InfinityWorld.empty).loadBlock flatNoise clearStorage ⟨16777216, 0⟩).locations).filter
        (fun d => !Vector2DistanceExceeds ⟨16777216, 0⟩ d 2) := by
    rw [mainLoopIteration, InfinityWorld.UnloadFarAreas_locations, hcell]
    simp only [InfinityWorld.GetArea, hcell, InfinityWorld.loadBlock]
  rw [hloc, loadBlock_at_16777216]
  decide

/-! ## The claims -/

/-- Claim C8, as stated, fails: the constant LANDSCAPE_NOISE_SMALL is not greater than
LANDSCAPE_NOISE_MEDIUM, so the order small > medium > big does not hold. -/
theorem small_above_medium_above_big_fails :
    ¬ (LANDSCAPE_NOISE_SMALL > LANDSCAPE_NOISE_MEDIUM ∧
        LANDSCAPE_NOISE_MEDIUM > LANDSCAPE_NOISE_BIG) := by
  norm_num [LANDSCAPE_NOISE_SMALL, LANDSCAPE_NOISE_MEDIUM, LANDSCAPE_NOISE_BIG]

/-- Claim C8, amended: CalcHeight multiplies the sample position by the three constants
LANDSCAPE_NOISE_SMALL, LANDSCAPE_NOISE_MEDIUM and LANDSCAPE_NOISE_BIG, and these satisfy
medium > small > big. -/
theorem noise_frequency_order :
    (∀ (noise : ℚ → ℚ → ℚ) (X Y : ℚ) (lo hi : Int),
      ChunkNode.CalcHeight noise X Y lo hi =
        Clamp
          (noise (X * LANDSCAPE_NOISE_SMALL) (Y * LANDSCAPE_NOISE_SMALL) +
            noise (X * LANDSCAPE_NOISE_MEDIUM) (Y * LANDSCAPE_NOISE_MEDIUM) +
            noise (X * LANDSCAPE_NOISE_BIG) (Y * LANDSCAPE_NOISE_BIG)) lo hi) ∧
    LANDSCAPE_NOISE_MEDIUM > LANDSCAPE_NOISE_SMALL ∧
    LANDSCAPE_NOISE_SMALL > LANDSCAPE_NOISE_BIG := by
  refine ⟨fun _ _ _ _ _ => rfl, ?_, ?_⟩ <;>
    norm_num [LANDSCAPE_NOISE_SMALL, LANDSCAPE_NOISE_MEDIUM, LANDSCAPE_NOISE_BIG]

/-- Claim C9: Unload on a chunk that is not loaded changes nothing; Unload on a loaded
chunk releases the image once and clears isLoaded, leaving everything else; two Unloads
equal one; and a chunk constructed on storage whose flag reads "not loaded" and taken
through any sequence of Load, Unload and destructor calls has released its image no more
often than it generated it, with an unreleased image left whenever it is flagged loaded. -/
theorem unload_idempotent_no_double_free (noise : ℚ → ℚ → ℚ) :
    (∀ c : ChunkNode, c.isLoaded = false → c.Unload = c) ∧
    (∀ c : ChunkNode, c.isLoaded = true →
      c.Unload = ⟨c.location, c.heightMap, c.heights, false, c.generated, c.released + 1⟩) ∧
    (∀ c : ChunkNode, c.Unload.Unload = c.Unload) ∧
    (∀ (location : Vector2) (storage : ChunkNode) (ops : List ChunkOp),
      storage.isLoaded = false →
        ((ChunkNode.construct location storage).run noise ops).released ≤
          ((ChunkNode.construct location storage).run noise ops).generated ∧
        (((ChunkNode.construct location storage).run noise ops).isLoaded = true →
          ((ChunkNode.construct location storage).run noise ops).released <
            ((ChunkNode.construct location storage).run noise ops).generated)) := by
  refine ⟨ChunkNode.Unload_of_not_loaded, ChunkNode.Unload_of_loaded, ?_, ?_⟩
  · intro c
    cases hl : c.isLoaded
    · rw [ChunkNode.Unload_of_not_loaded c hl, ChunkNode.Unload_of_not_loaded c hl]
    · rw [ChunkNode.Unload_of_loaded c hl]
      exact ChunkNode.Unload_of_not_loaded _ rfl
  · intro location storage ops hs
    have h := ChunkNode.balance_run noise ops (ChunkNode.construct location storage)
      (by simp [ChunkNode.construct, hs])
    constructor
    · omega
    · intro hl
      rw [hl] at h
      simp at h
      omega

/-- Witness of C9: a fresh chunk taken through Unload, Load, Unload, Unload and the
destructor generated one image and released one. -/
theorem unload_idempotent_no_double_free_witness :
    ((ChunkNode.construct ⟨0, 0⟩ clearStorage).run flatNoise
        [ChunkOp.unload, ChunkOp.load, ChunkOp.unload, ChunkOp.unload, ChunkOp.destroy]).released ≤
      ((ChunkNode.construct ⟨0, 0⟩ clearStorage).run flatNoise
        [ChunkOp.unload, ChunkOp.load, ChunkOp.unload, ChunkOp.unload, ChunkOp.destroy]).generated :=
  ((unload_idempotent_no_double_free flatNoise).2.2.2 ⟨0, 0⟩ clearStorage
    [ChunkOp.unload, ChunkOp.load, ChunkOp.unload, ChunkOp.unload, ChunkOp.destroy] rfl).1

/-- Claim C1: starting from the empty cache, after every finite sequence of
LoadOrGetAreaByLocation, LoadNeighbours, GetArea, UnloadFarAreas and UnloadAll calls the
areas list holds at most one entry for each grid coordinate: no location occurs twice. -/
theorem uniqueness (noise : ℚ → ℚ → ℚ) (storage : ChunkNode) (ops : List Op) (c : Vector2) :
    (((InfinityWorld.empty).run noise storage ops).areas.filter
        (fun a => decide (a.location = c))).length ≤ 1 ∧
    ((InfinityWorld.empty).run noise storage ops).locations.Nodup := by
  have h : ((InfinityWorld.empty).run noise storage ops).locations.Nodup :=
    InfinityWorld.nodup_run noise storage ops
  exact ⟨length_filter_location_le_one _ c h, h⟩

/-- Claim C2: with v the cell of the viewpoint, the areas list after UnloadFarAreas is
the list before, restricted to the entries with dx^2 + dy^2 <= 4 from v, in the original
order and unchanged; every farther entry is absent, every remaining entry is an old entry
within the radius, and the loop dereferences every entry exactly once, in order. -/
theorem eviction_correct (w : InfinityWorld) (pos : Vector3) :
    (w.UnloadFarAreas pos).areas =
      w.areas.filter (fun a => decide
        (Vector2DistanceSqr (InfinityWorld.GetChunkLocationByPosition pos) a.location ≤ 4)) ∧
    (∀ a ∈ w.areas,
      Vector2DistanceSqr (InfinityWorld.GetChunkLocationByPosition pos) a.location > 4 →
        a ∉ (w.UnloadFarAreas pos).areas) ∧
    (∀ a ∈ (w.UnloadFarAreas pos).areas, a ∈ w.areas ∧
      Vector2DistanceSqr (InfinityWorld.GetChunkLocationByPosition pos) a.location ≤ 4) ∧
    (InfinityWorld.UnloadFarAreas.loop (InfinityWorld.GetChunkLocationByPosition pos)
      ⟨w.areas, 0, [], []⟩).visited = w.areas ∧
    (InfinityWorld.UnloadFarAreas.loop (InfinityWorld.GetChunkLocationByPosition pos)
      ⟨w.areas, 0, [], []⟩).it = (w.UnloadFarAreas pos).areas.length := by
  have hloop := InfinityWorld.UnloadFarAreas.loop_spec
    (InfinityWorld.GetChunkLocationByPosition pos) w.areas [] [] []
  simp only [List.nil_append, List.length_nil] at hloop
  have hfilter : (w.UnloadFarAreas pos).areas =
      w.areas.filter (fun a => decide
        (Vector2DistanceSqr (InfinityWorld.GetChunkLocationByPosition pos) a.location ≤ 4)) := by
    rw [InfinityWorld.UnloadFarAreas_areas]
    apply List.filter_congr
    intro a _
    rw [Bool.eq_iff_iff, staysNear_iff]
    simp
  refine ⟨hfilter, ?_, ?_, ?_, ?_⟩
  · intro a _ hfar hmem
    rw [hfilter, List.mem_filter] at hmem
    have := hmem.2
    simp only [decide_eq_true_eq] at this
    omega
  · intro a hmem
    rw [hfilter, List.mem_filter] at hmem
    exact ⟨hmem.1, by simpa using hmem.2⟩
  · rw [hloop]
  · rw [hloop, InfinityWorld.UnloadFarAreas_areas]

/-- Claim C10: when the cache holds at most one entry per location, the areas list has at
most 13 entries right after UnloadFarAreas, whatever it held before. -/
theorem bounded_residency (w : InfinityWorld) (pos : Vector3) (h : w.locations.Nodup) :
    (w.UnloadFarAreas pos).areas.length ≤ 13 := by
  have hlen : (w.UnloadFarAreas pos).areas.length = (w.UnloadFarAreas pos).locations.length := by
    simp [InfinityWorld.locations]
  rw [hlen, InfinityWorld.UnloadFarAreas_locations]
  apply length_le_thirteen (InfinityWorld.GetChunkLocationByPosition pos)
  · exact h.filter _
  · intro d hd
    have := (List.mem_filter.mp hd).2
    simpa [Vector2DistanceExceeds] using this

/-- Witness of C10: the cache holding the 25 cells of the 5x5 block around the origin has
unique locations, and eviction around the origin leaves at most 13 entries. -/
theorem bounded_residency_witness :
    denseWorld.locations.Nodup ∧ (denseWorld.UnloadFarAreas ⟨1, 10, 1⟩).areas.length ≤ 13 :=
  ⟨InfinityWorld.nodup_run flatNoise clearStorage _,
    bounded_residency denseWorld ⟨1, 10, 1⟩ (InfinityWorld.nodup_run flatNoise clearStorage _)⟩

/-- Claim C6, as stated, fails: in an iteration that starts with the camera at x = 499 in
cell (0, 0) and moves it to x = 504 in cell (1, 0), the neighbour (-1, 1) of the current
chunk, loaded in that iteration, is no longer resident when the iteration ends. -/
theorem moved_camera_evicts_fresh_neighbour :
    InfinityWorld.GetChunkLocationByPosition ⟨499, 10, 1 / 10⟩ = ⟨0, 0⟩ ∧
    InfinityWorld.GetChunkLocationByPosition ⟨504, 10, 1 / 10⟩ = ⟨1, 0⟩ ∧
    (⟨-1, 1⟩ : Vector2) ∈ block ⟨0, 0⟩ ∧
    (⟨-1, 1⟩ : Vector2) ∉
      (mainLoopIteration flatNoise clearStorage InfinityWorld.empty ⟨499, 10, 1 / 10⟩
        ⟨504, 10, 1 / 10⟩).locations := by
  have h0 : InfinityWorld.GetChunkLocationByPosition ⟨499, 10, 1 / 10⟩ = ⟨0, 0⟩ := by
    rw [GetChunkLocationByPosition_eq, cell_499, cellOf_zero (1 / 10) (by norm_num) (by norm_num)]
  have h1 : InfinityWorld.GetChunkLocationByPosition ⟨504, 10, 1 / 10⟩ = ⟨1, 0⟩ := by
    rw [GetChunkLocationByPosition_eq, cell_504, cellOf_zero (1 / 10) (by norm_num) (by norm_num)]
  refine ⟨h0, h1, by decide, ?_⟩
  rw [mainLoopIteration_locations _ _ _ _ _ (fun _ hd => absurd hd (List.not_mem_nil _))
    (by rw [h0]; exact inExactRange_origin), h0, h1]
  simp only [InfinityWorld.empty, InfinityWorld.locations, List.map_nil]
  decide


/-- Claim C4, as stated, fails: for the chunk (0, 169467) the product 169467 * 99 =
16777233 does not overflow but is no binary32 value and Load rounds it to 16777232, so
with a noise function that grows with the position the sample [0][CHUNK_SIZE-1] of chunk
(0, 169467) differs from the sample [0][0] of chunk (0, 169468). -/
theorem stitching_breaks_at_169467 :
    (169467 : Int) * 99 = 16777233 ∧ (16777233 : Int) < 2147483648 ∧
    f32Int (169467 * 99) = 16777232 ∧ f32Int (169468 * 99) = 169468 * 99 ∧
    ((ChunkNode.construct ⟨0, 169467⟩ clearStorage).Load slopeNoise).heights 0 (CHUNK_SIZE - 1) ≠
      ((ChunkNode.construct ⟨0, 169467 + 1⟩ clearStorage).Load slopeNoise).heights 0 0 := by
  have hlow : castInt (f32Int (169467 * ((CHUNK_SIZE : Int) - 1))) = 16777232 := by
    have h99 : (169467 : Int) * ((CHUNK_SIZE : Int) - 1) = 16777233 := by simp [CHUNK_SIZE]
    rw [h99, f32Int_16777233]
    decide
  have hhigh : castInt (f32Int ((169467 + 1) * ((CHUNK_SIZE : Int) - 1))) = 16777332 := by
    have h99 : ((169467 : Int) + 1) * ((CHUNK_SIZE : Int) - 1) = 16777332 := by
      simp [CHUNK_SIZE]
    rw [h99, f32Int_16777332]
    decide
  have hzero : castInt (f32Int (0 * ((CHUNK_SIZE : Int) - 1))) = 0 := by
    have := offset_exact 0 (by norm_num) (by norm_num)
    simpa using this
  refine ⟨by norm_num, by norm_num, by norm_num [f32Int_16777233],
    by norm_num [f32Int_16777332], ?_⟩
  rw [ChunkNode.Load_heights slopeNoise _ _ _ (by decide) (by decide),
    ChunkNode.Load_heights slopeNoise _ _ _ (by decide) (by decide)]
  simp only [ChunkNode.construct]
  rw [hlow, hhigh, hzero]
  norm_num [ChunkNode.sampleAt, ChunkNode.CalcHeight, Clamp, slopeNoise, CHUNK_SIZE,
    LANDSCAPE_NOISE_SMALL, LANDSCAPE_NOISE_MEDIUM, LANDSCAPE_NOISE_BIG]

/-- Claim C4, amended: for chunk coordinates cx, cy from -169466 to 169465, where the
products with CHUNK_SIZE - 1 of the coordinate and of its successor are binary32 values,
after Load sample [CHUNK_SIZE-1][j] of chunk (cx, cy) equals sample [0][j] of chunk
(cx+1, cy), and sample [j][CHUNK_SIZE-1] of chunk (cx, cy) equals sample [j][0] of chunk
(cx, cy+1), for every noise function and whatever the fresh chunks held. -/
theorem stitching (noise : ℚ → ℚ → ℚ) (s1 s2 s3 : ChunkNode) (cx cy : Int) (j : Nat)
    (hj : j < CHUNK_SIZE) (hx : -169466 ≤ cx ∧ cx < 169466) (hy : -169466 ≤ cy ∧ cy < 169466) :
    ((ChunkNode.construct ⟨cx, cy⟩ s1).Load noise).heights (CHUNK_SIZE - 1) j =
      ((ChunkNode.construct ⟨cx + 1, cy⟩ s2).Load noise).heights 0 j ∧
    ((ChunkNode.construct ⟨cx, cy⟩ s1).Load noise).heights j (CHUNK_SIZE - 1) =
      ((ChunkNode.construct ⟨cx, cy + 1⟩ s3).Load noise).heights j 0 := by
  have h0 : 0 < CHUNK_SIZE := by decide
  have h99 : CHUNK_SIZE - 1 < CHUNK_SIZE := by decide
  rw [ChunkNode.Load_heights noise _ _ _ h99 hj, ChunkNode.Load_heights noise _ _ _ h0 hj,
    ChunkNode.Load_heights noise _ _ _ hj h99, ChunkNode.Load_heights noise _ _ _ hj h0]
  simp only [ChunkNode.construct]
  rw [offset_exact cx (by omega) (by omega), offset_exact cy (by omega) (by omega),
    offset_exact (cx + 1) (by omega) (by omega), offset_exact (cy + 1) (by omega) (by omega)]
  simp only [ChunkNode.sampleAt, CHUNK_SIZE]
  constructor
  · congr 2
    push_cast
    ring
  · congr 2
    push_cast
    ring

/-- Witness of C4: chunk (3, -2) and its neighbours (4, -2) and (3, -1) at index 7, with
a noise function that varies with the position and different storage contents. -/
theorem stitching_witness :
    7 < CHUNK_SIZE ∧
    ((ChunkNode.construct ⟨3, -2⟩ clearStorage).Load rampNoise).heights (CHUNK_SIZE - 1) 7 =
      ((ChunkNode.construct ⟨3 + 1, -2⟩ dirtyStorage).Load rampNoise).heights 0 7 ∧
    ((ChunkNode.construct ⟨3, -2⟩ clearStorage).Load rampNoise).heights 7 (CHUNK_SIZE - 1) =
      ((ChunkNode.construct ⟨3, -2 + 1⟩ dirtyStorage).Load rampNoise).heights 7 0 :=
  ⟨by decide,
    stitching rampNoise clearStorage dirtyStorage dirtyStorage 3 (-2) 7 (by decide)
      (by decide) (by decide)⟩

/-- Claim C5, as stated, fails: at c = (16777216, 0) the float sum 16777216 + 1 rounds to
16777216, three of the eight neighbour requests hit an entry that is already resident,
and LoadOrGetAreaByLocation followed by LoadNeighbours leaves 6 entries, not 9. -/
theorem neighbours_collapse_at_16777216 :
    f32Int (16777216 + 1) = 16777216 ∧
    ((InfinityWorld.empty).loadBlock flatNoise clearStorage ⟨16777216, 0⟩).locations =
      [⟨16777216, 0⟩, ⟨16777216, -1⟩, ⟨16777216, 1⟩, ⟨16777215, 1⟩, ⟨16777215, 0⟩,
        ⟨16777215, -1⟩] ∧
    ((InfinityWorld.empty).loadBlock flatNoise clearStorage ⟨16777216, 0⟩).areas.length = 6 ∧
    ((InfinityWorld.empty).loadBlock flatNoise clearStorage ⟨16777216, 0⟩).locations ≠
      block ⟨16777216, 0⟩ := by
  refine ⟨f32Int_16777217, loadBlock_at_16777216 flatNoise clearStorage, ?_, ?_⟩
  · rw [InfinityWorld.length_areas, loadBlock_at_16777216]
    rfl
  · rw [loadBlock_at_16777216]
    decide

/-- Claim C5, amended: for c and c' with coordinates below 2^24 - 1 in magnitude, from the
empty cache, LoadOrGetAreaByLocation(c) followed by LoadNeighbours on the returned area
leaves exactly the 9 entries of the block around c; and when every one of those 9 cells
is farther than 2 from c', continuing with LoadOrGetAreaByLocation(c'), LoadNeighbours
and UnloadFarAreas from a position in cell c' removes all 9 original entries and leaves
exactly the 9 entries of the block around c'. -/
theorem neighbourhood_scenario (noise : ℚ → ℚ → ℚ) (storage : ChunkNode) (c c' : Vector2)
    (pos : Vector3) (hc : InExactRange c) (hc' : InExactRange c')
    (hpos : InfinityWorld.GetChunkLocationByPosition pos = c')
    (hfar : ∀ d ∈ block c, Vector2DistanceExceeds c' d 2 = true) :
    ((InfinityWorld.empty).loadBlock noise storage c).locations = block c ∧
    ((InfinityWorld.empty).loadBlock noise storage c).areas.length = 9 ∧
    ((((InfinityWorld.empty).loadBlock noise storage c).loadBlock noise storage c'
      ).UnloadFarAreas pos).locations = block c' ∧
    ((((InfinityWorld.empty).loadBlock noise storage c).loadBlock noise storage c'
      ).UnloadFarAreas pos).areas.length = 9 ∧
    (∀ d ∈ block c, d ∉ ((((InfinityWorld.empty).loadBlock noise storage c).loadBlock
      noise storage c').UnloadFarAreas pos).locations) := by
  have h1 : ((InfinityWorld.empty).loadBlock noise storage c).locations = block c := by
    rw [InfinityWorld.loadBlock_locations noise storage _ c
      (fun _ hd => absurd hd (List.not_mem_nil _)) hc]
    have := foldl_insertLocation_fresh (block c) [] (nodup_block c) (fun _ _ => List.not_mem_nil _)
    simpa [InfinityWorld.empty, InfinityWorld.locations] using this
  have hdisj : ∀ d ∈ block c', d ∉ block c := by
    intro d hd hmem
    have hnear := block_near c' d hd
    have hexc := hfar d hmem
    simp only [Vector2DistanceExceeds, decide_eq_true_eq] at hexc
    omega
  have h2 : (((InfinityWorld.empty).loadBlock noise storage c).loadBlock noise storage c'
      ).locations = block c ++ block c' := by
    rw [InfinityWorld.loadBlock_locations noise storage _ c'
      (by rw [h1]; exact inIntRange_block c hc) hc', h1]
    exact foldl_insertLocation_fresh (block c') (block c) (nodup_block c') hdisj
  have h3 : ((((InfinityWorld.empty).loadBlock noise storage c).loadBlock noise storage c'
      ).UnloadFarAreas pos).locations = block c' := by
    rw [InfinityWorld.UnloadFarAreas_locations, h2, hpos, List.filter_append]
    have hnil : (block c).filter (fun d => !Vector2DistanceExceeds c' d 2) = [] := by
      rw [List.filter_eq_nil_iff]
      intro d hd
      simp [hfar d hd]
    have hall : (block c').filter (fun d => !Vector2DistanceExceeds c' d 2) = block c' := by
      rw [List.filter_eq_self]
      intro d hd
      have hnear := block_near c' d hd
      simp only [Vector2DistanceExceeds, Bool.not_eq_true', decide_eq_false_iff_not, not_lt,
        ge_iff_le, gt_iff_lt]
      omega
    rw [hnil, hall, List.nil_append]
  refine ⟨h1, ?_, h3, ?_, ?_⟩
  · rw [InfinityWorld.length_areas, h1, length_block]
  · rw [InfinityWorld.length_areas, h3, length_block]
  · intro d hd hmem
    rw [h3] at hmem
    exact hdisj d hmem hd

/-- Witness of C5: c = (0, 0) and c' = (10, 10), the viewpoint at x = z = 5250. -/
theorem neighbourhood_scenario_witness :
    InExactRange ⟨0, 0⟩ ∧ InExactRange ⟨10, 10⟩ ∧
    InfinityWorld.GetChunkLocationByPosition ⟨5250, 10, 5250⟩ = ⟨10, 10⟩ ∧
    (∀ d ∈ block ⟨0, 0⟩, Vector2DistanceExceeds ⟨10, 10⟩ d 2 = true) ∧
    ((InfinityWorld.empty).loadBlock rampNoise clearStorage ⟨0, 0⟩).locations = block ⟨0, 0⟩ ∧
    ((((InfinityWorld.empty).loadBlock rampNoise clearStorage ⟨0, 0⟩).loadBlock rampNoise
      clearStorage ⟨10, 10⟩).UnloadFarAreas ⟨5250, 10, 5250⟩).locations = block ⟨10, 10⟩ ∧
    ((((InfinityWorld.empty).loadBlock rampNoise clearStorage ⟨0, 0⟩).loadBlock rampNoise
      clearStorage ⟨10, 10⟩).UnloadFarAreas ⟨5250, 10, 5250⟩).areas.length = 9 :=
  have hten : InExactRange ⟨10, 10⟩ := by unfold InExactRange; decide
  have hcell : cellOf 5250 = 10 :=
    cellOf_of_bounds 5250 10 (f32_ofInt 5250 5250 (by norm_num) (by norm_num) (by norm_num))
      (Or.inr (by norm_num)) (by norm_num) (by norm_num) (by norm_num)
  have hpos : InfinityWorld.GetChunkLocationByPosition ⟨5250, 10, 5250⟩ = ⟨10, 10⟩ := by
    rw [GetChunkLocationByPosition_eq, hcell]
  have hfar : ∀ d ∈ block ⟨0, 0⟩, Vector2DistanceExceeds ⟨10, 10⟩ d 2 = true := by decide
  have h := neighbourhood_scenario rampNoise clearStorage ⟨0, 0⟩ ⟨10, 10⟩ ⟨5250, 10, 5250⟩
    inExactRange_origin hten hpos hfar
  ⟨inExactRange_origin, hten, hpos, hfar, h.1, h.2.2.1, h.2.2.2.1⟩

/-- Claim C6, amended: the eviction step of an iteration uses the cell of the camera
position after that iteration's camera update; when the cache lies in the range of int
and the cell of the load step is below 2^24 - 1 in magnitude, a cell of the block loaded
in the iteration is resident at the end exactly when it is within distance 2 of the
eviction cell; hence, when the camera ends the iteration in the cell it started in, the
current chunk and its 8 neighbours are all still resident when the iteration ends. -/
theorem same_cell_eviction (noise : ℚ → ℚ → ℚ) (storage : ChunkNode) (world : InfinityWorld)
    (position updated : Vector3) :
    (mainLoopIteration noise storage world position updated).areas =
      ((world.loadBlock noise storage
          (InfinityWorld.GetChunkLocationByPosition position)).areas.filter
        (fun a => decide (Vector2DistanceSqr
          (InfinityWorld.GetChunkLocationByPosition updated) a.location ≤ 4))) ∧
    ((∀ d ∈ world.locations, InIntRange d) →
      InExactRange (InfinityWorld.GetChunkLocationByPosition position) →
      ∀ d ∈ block (InfinityWorld.GetChunkLocationByPosition position),
        (d ∈ (mainLoopIteration noise storage world position updated).locations ↔
          Vector2DistanceSqr (InfinityWorld.GetChunkLocationByPosition updated) d ≤ 4)) ∧
    ((∀ d ∈ world.locations, InIntRange d) →
      InExactRange (InfinityWorld.GetChunkLocationByPosition position) →
      InfinityWorld.GetChunkLocationByPosition updated =
        InfinityWorld.GetChunkLocationByPosition position →
      ∀ d ∈ block (InfinityWorld.GetChunkLocationByPosition position),
        d ∈ (mainLoopIteration noise storage world position updated).locations) := by
  have hiff : (∀ d ∈ world.locations, InIntRange d) →
      InExactRange (InfinityWorld.GetChunkLocationByPosition position) →
      ∀ d ∈ block (InfinityWorld.GetChunkLocationByPosition position),
      (d ∈ (mainLoopIteration noise storage world position updated).locations ↔
        Vector2DistanceSqr (InfinityWorld.GetChunkLocationByPosition updated) d ≤ 4) := by
    intro hw hc d hd
    rw [mainLoopIteration_locations noise storage world position updated hw hc,
      List.mem_filter, mem_foldl_insertLocation]
    simp only [Vector2DistanceExceeds, Bool.not_eq_true', decide_eq_false_iff_not, not_lt,
      gt_iff_lt]
    constructor
    · intro h
      simpa using h.2
    · intro h
      exact ⟨Or.inr hd, by simpa using h⟩
  refine ⟨?_, hiff, ?_⟩
  · show ((world.loadBlock noise storage
        (InfinityWorld.GetChunkLocationByPosition position)).UnloadFarAreas updated).areas = _
    rw [InfinityWorld.UnloadFarAreas_areas]
    apply List.filter_congr
    intro a _
    rw [Bool.eq_iff_iff, staysNear_iff]
    simp
  · intro hw hc hsame d hd
    rw [hiff hw hc d hd, hsame]
    have := block_near _ d hd
    omega

/-- Witness of C6 amended: an iteration in which the camera moves from x = 499 to x = 500
stays in cell (0, 0), and the whole block around (0, 0) is resident at its end. -/
theorem same_cell_eviction_witness :
    InfinityWorld.GetChunkLocationByPosition ⟨500, 10, 1 / 10⟩ =
      InfinityWorld.GetChunkLocationByPosition ⟨499, 10, 1 / 10⟩ ∧
    ∀ d ∈ block (InfinityWorld.GetChunkLocationByPosition ⟨499, 10, 1 / 10⟩),
      d ∈ (mainLoopIteration flatNoise clearStorage InfinityWorld.empty ⟨499, 10, 1 / 10⟩
        ⟨500, 10, 1 / 10⟩).locations :=
  have h499 : InfinityWorld.GetChunkLocationByPosition ⟨499, 10, 1 / 10⟩ = ⟨0, 0⟩ := by
    rw [GetChunkLocationByPosition_eq, cell_499, cellOf_zero (1 / 10) (by norm_num) (by norm_num)]
  have hsame : InfinityWorld.GetChunkLocationByPosition ⟨500, 10, 1 / 10⟩ =
      InfinityWorld.GetChunkLocationByPosition ⟨499, 10, 1 / 10⟩ := by
    rw [h499, GetChunkLocationByPosition_eq, cell_500,
      cellOf_zero (1 / 10) (by norm_num) (by norm_num)]
  ⟨hsame, (same_cell_eviction flatNoise clearStorage InfinityWorld.empty ⟨499, 10, 1 / 10⟩
    ⟨500, 10, 1 / 10⟩).2.2 (fun _ hd => absurd hd (List.not_mem_nil _))
    (by rw [h499]; exact inExactRange_origin) hsame⟩

/-- Claim C3, as stated, fails: the lookup compares `(int)` casts, and beyond the range of
int two different coordinates have the same cast.  On the cache that holds one entry at
(2147483648, 0), a request for the absent location (4294967296, 0) generates no chunk and
returns the entry at (2147483648, 0). -/
theorem out_of_range_request_generates_nothing :
    (⟨4294967296, 0⟩ : Vector2) ∉
      ((InfinityWorld.empty).LoadOrGetAreaByLocation flatNoise clearStorage
        ⟨2147483648, 0⟩).2.locations ∧
    (((InfinityWorld.empty).LoadOrGetAreaByLocation flatNoise clearStorage
        ⟨2147483648, 0⟩).2.LoadOrGetAreaByLocation flatNoise clearStorage
          ⟨4294967296, 0⟩).2.generations =
      ((InfinityWorld.empty).LoadOrGetAreaByLocation flatNoise clearStorage
        ⟨2147483648, 0⟩).2.generations ∧
    (((InfinityWorld.empty).LoadOrGetAreaByLocation flatNoise clearStorage
        ⟨2147483648, 0⟩).2.LoadOrGetAreaByLocation flatNoise clearStorage
          ⟨4294967296, 0⟩).1.location = ⟨2147483648, 0⟩ := by
  have hfirst := InfinityWorld.LoadOrGet_missing flatNoise clearStorage InfinityWorld.empty
    ⟨2147483648, 0⟩ rfl
  have hfind : ((InfinityWorld.empty).LoadOrGetAreaByLocation flatNoise clearStorage
      ⟨2147483648, 0⟩).2.GetAreaByLocalPos ⟨4294967296, 0⟩ =
      some (InfinityWorld.freshArea flatNoise clearStorage ⟨2147483648, 0⟩) := by
    rw [hfirst]
    simp only [InfinityWorld.GetAreaByLocalPos, InfinityWorld.empty, List.nil_append,
      List.find?_cons, InfinityWorld.freshArea_location]
    rfl
  rw [InfinityWorld.LoadOrGet_found _ _ _ _ _ hfind]
  refine ⟨?_, rfl, rfl⟩
  rw [hfirst]
  simp only [InfinityWorld.locations, InfinityWorld.empty, List.nil_append, List.map_cons,
    List.map_nil, InfinityWorld.freshArea_location]
  decide

/-- Claim C3, amended: when an entry for c is resident, LoadOrGetAreaByLocation(c)
returns a resident entry with the `(int)` casts of c and leaves the cache and the
generation count unchanged; with the coordinates in the range of int that entry is at c,
and it is the entry for c when locations are unique.  When the lookup finds nothing
(within the range of int: when c is absent) the call constructs and loads exactly one
chunk at c and appends the area built from it.  On any cache a second call right after a
first returns the same entry and the same cache and generates nothing. -/
theorem no_redundant_generation (noise : ℚ → ℚ → ℚ) (storage : ChunkNode)
    (w : InfinityWorld) (c : Vector2) :
    (c ∈ w.locations → ∃ a ∈ w.areas, castKey a.location = castKey c ∧
      w.LoadOrGetAreaByLocation noise storage c = (a, w)) ∧
    ((∀ d ∈ w.locations, InIntRange d) → InIntRange c → c ∈ w.locations →
      ∃ a ∈ w.areas, a.location = c ∧ w.LoadOrGetAreaByLocation noise storage c = (a, w)) ∧
    ((∀ d ∈ w.locations, InIntRange d) → InIntRange c → w.locations.Nodup →
      ∀ a ∈ w.areas, a.location = c → w.LoadOrGetAreaByLocation noise storage c = (a, w)) ∧
    (w.GetAreaByLocalPos c = none →
      w.LoadOrGetAreaByLocation noise storage c =
        (InfinityWorld.freshArea noise storage c,
          ⟨w.areas ++ [InfinityWorld.freshArea noise storage c],
            w.log ++ [Event.generated c]⟩)) ∧
    ((InfinityWorld.freshArea noise storage c).location = c ∧
      (InfinityWorld.freshArea noise storage c).chunkNode =
        (ChunkNode.construct c storage).Load noise ∧
      (InfinityWorld.freshArea noise storage c).chunkNode.isLoaded = true ∧
      (InfinityWorld.freshArea noise storage c).chunkNode.generated = 1) ∧
    ((∀ d ∈ w.locations, InIntRange d) → InIntRange c → c ∉ w.locations →
      w.GetAreaByLocalPos c = none) ∧
    (w.LoadOrGetAreaByLocation noise storage c).2.LoadOrGetAreaByLocation noise storage c =
      w.LoadOrGetAreaByLocation noise storage c ∧
    (w.LoadOrGetAreaByLocation noise storage c).2.generations =
      w.generations + (if (w.GetAreaByLocalPos c).isSome then 0 else 1) ∧
    ((w.LoadOrGetAreaByLocation noise storage c).2.LoadOrGetAreaByLocation
      noise storage c).2.generations =
      (w.LoadOrGetAreaByLocation noise storage c).2.generations := by
  refine ⟨?_, ?_, ?_, InfinityWorld.LoadOrGet_missing noise storage w c, ?_, ?_,
    LoadOrGet_twice noise storage w c, ?_, ?_⟩
  · intro hc
    obtain ⟨a, ha, hkey, hfind⟩ := lookup_of_resident w c hc
    exact ⟨a, ha, hkey, InfinityWorld.LoadOrGet_found noise storage w c a hfind⟩
  · intro hw hci hc
    obtain ⟨a, ha, hkey, hfind⟩ := lookup_of_resident w c hc
    exact ⟨a, ha, castKey_inj _ _ (hw _ (List.mem_map.mpr ⟨a, ha, rfl⟩)) hci hkey,
      InfinityWorld.LoadOrGet_found noise storage w c a hfind⟩
  · intro hw hci hnd a ha hloc
    obtain ⟨b, hb, hkey, hfind⟩ := lookup_of_resident w c (List.mem_map.mpr ⟨a, ha, hloc⟩)
    have hbloc : b.location = c :=
      castKey_inj _ _ (hw _ (List.mem_map.mpr ⟨b, hb, rfl⟩)) hci hkey
    have hab : b = a := List.inj_on_of_nodup_map hnd hb ha (hbloc.trans hloc.symm)
    rw [InfinityWorld.LoadOrGet_found noise storage w c b hfind, hab]
  · refine ⟨rfl, rfl, ?_, ?_⟩
    · exact ChunkNode.Load_isLoaded noise _
    · rw [show (InfinityWorld.freshArea noise storage c).chunkNode =
        (ChunkNode.construct c storage).Load noise from rfl, ChunkNode.Load_generated]
      rfl
  · intro hw hci hc
    rw [InfinityWorld.GetAreaByLocalPos_eq_none_iff]
    intro hkey
    obtain ⟨d, hd, hdk⟩ := List.mem_map.mp hkey
    exact hc (castKey_inj d c (hw d hd) hci hdk ▸ hd)
  · cases hfind : w.GetAreaByLocalPos c with
    | none =>
      rw [generations_missing noise storage w c hfind]
      simp
    | some a =>
      rw [InfinityWorld.LoadOrGet_found noise storage w c a hfind]
      simp
  · rw [LoadOrGet_twice]

/-- Witness of C3: on the cache that holds the 3x3 block around the origin, a request for
the resident location (1, 1) returns the entry at (1, 1) and leaves the cache unchanged,
and a request for the absent location (5, 5) finds nothing and so loads one chunk. -/
theorem no_redundant_generation_witness :
    (∀ d ∈ originWorld.locations, InIntRange d) ∧
    (⟨1, 1⟩ : Vector2) ∈ originWorld.locations ∧
    (∃ a ∈ originWorld.areas, a.location = ⟨1, 1⟩ ∧
      originWorld.LoadOrGetAreaByLocation flatNoise clearStorage ⟨1, 1⟩ = (a, originWorld)) ∧
    (⟨5, 5⟩ : Vector2) ∉ originWorld.locations ∧
    originWorld.GetAreaByLocalPos ⟨5, 5⟩ = none :=
  have hlocs : originWorld.locations = block ⟨0, 0⟩ := by
    rw [originWorld, InfinityWorld.loadBlock_locations flatNoise clearStorage _ ⟨0, 0⟩
      (fun _ hd => absurd hd (List.not_mem_nil _)) inExactRange_origin]
    decide
  have hw : ∀ d ∈ originWorld.locations, InIntRange d := by
    rw [hlocs]
    exact inIntRange_block ⟨0, 0⟩ inExactRange_origin
  have h11 : (⟨1, 1⟩ : Vector2) ∈ originWorld.locations := by rw [hlocs]; decide
  have h55 : (⟨5, 5⟩ : Vector2) ∉ originWorld.locations := by rw [hlocs]; decide
  have hr11 : InIntRange ⟨1, 1⟩ := by unfold InIntRange; decide
  have hr55 : InIntRange ⟨5, 5⟩ := by unfold InIntRange; decide
  ⟨hw, h11,
    (no_redundant_generation flatNoise clearStorage originWorld ⟨1, 1⟩).2.1 hw hr11 h11, h55,
    (no_redundant_generation flatNoise clearStorage originWorld ⟨5, 5⟩).2.2.2.2.2.1 hw hr55 h55⟩

end InfinityTerrain
